import Mathlib

/-!
Shallow embedding of the retrieval engine of the mcp-memory-server repository:
vector math (src/vector/VectorUtils.ts), the in-memory vector store
(src/vector/VectorStore.ts), the LRU record cache (src/utils/MemoryCache.ts),
the multi-field inverted index (src/utils/MemoryIndex.ts), the embedding
provider retry loop (src/embedding/EmbeddingProvider.ts) and the orchestrating
MemoryManager (src/memory/MemoryManager.ts).

Modelling conventions:
* JavaScript double values are embedded as real numbers; NaN and the
  infinities are not representable, so the finiteness test of
  VectorUtils.validateVector reduces to the non-emptiness test.
* A JavaScript Map is embedded as an insertion-ordered association list with
  pairwise-distinct keys; Map.set on a present key updates the value in place,
  otherwise it appends.  A JavaScript Set of ids is an insertion-ordered
  duplicate-free list.
* Metadata payloads and timestamps that are merely carried through
  (never branched on) are modelled as string data or omitted.
-/

namespace MCPMemory

/-- Error kinds thrown by the vector layer (DimensionMismatch, EmptyVector,
InvalidVector in the design vocabulary). -/
inductive VError where
  | dimensionMismatch
  | emptyVector
  | invalidVector
  deriving DecidableEq

/-- A float vector of the source, embedded as a list of reals. -/
abbrev Vec := List ℝ

/-- The dot-product accumulator of VectorUtils.cosineSimilarity. -/
def dotProduct (a b : Vec) : ℝ := (List.zipWith (fun x y => x * y) a b).sum

/-- The squared-magnitude accumulator of VectorUtils.cosineSimilarity
(the value of magnitudeA before Math.sqrt is applied). -/
def sumSquares (a : Vec) : ℝ := (a.map (fun x => x * x)).sum

/-- VectorUtils.validateVector: true iff the argument is a non-empty array of
finite numbers.  In the real-number embedding every component is finite, so
only non-emptiness remains. -/
def validateVector (v : Vec) : Bool := decide (0 < v.length)

/-- VectorUtils.cosineSimilarity (src/vector/VectorUtils.ts lines 8-35):
dimension check, emptiness check, then dot(a,b)/(|a|·|b|) with an exact-zero
result when either magnitude is zero. -/
noncomputable def cosineSimilarity (a b : Vec) : Except VError ℝ :=
  if a.length ≠ b.length then .error .dimensionMismatch
  else if a.length = 0 then .error .emptyVector
  else
    let magA := Real.sqrt (sumSquares a)
    let magB := Real.sqrt (sumSquares b)
    if magA = 0 ∨ magB = 0 then .ok 0
    else .ok (dotProduct a b / (magA * magB))

lemma dotProduct_self (a : Vec) : dotProduct a a = sumSquares a := by
  induction a with
  | nil => rfl
  | cons x xs ih =>
      simp [dotProduct, sumSquares, List.zipWith] at ih ⊢
      try exact ih

lemma sumSquares_nonneg (a : Vec) : 0 ≤ sumSquares a := by
  induction a with
  | nil => simp [sumSquares]
  | cons x xs ih =>
      simp only [sumSquares, List.map_cons, List.sum_cons] at ih ⊢
      have := mul_self_nonneg x
      linarith

/-- C4: cosineSimilarity fails with DimensionMismatch when the lengths differ,
fails with EmptyVector when the (equal) length is 0, returns exactly 0 (not an
error) when either magnitude is 0, and otherwise returns dot(a,b)/(|a|·|b|). -/
theorem cosineSimilarity_cases (a b : Vec) :
    (a.length ≠ b.length → cosineSimilarity a b = .error .dimensionMismatch) ∧
    (a.length = b.length → a.length = 0 → cosineSimilarity a b = .error .emptyVector) ∧
    (a.length = b.length → a.length ≠ 0 →
      (Real.sqrt (sumSquares a) = 0 ∨ Real.sqrt (sumSquares b) = 0) →
      cosineSimilarity a b = .ok 0) ∧
    (a.length = b.length → a.length ≠ 0 →
      ¬(Real.sqrt (sumSquares a) = 0 ∨ Real.sqrt (sumSquares b) = 0) →
      cosineSimilarity a b =
        .ok (dotProduct a b / (Real.sqrt (sumSquares a) * Real.sqrt (sumSquares b)))) := by
  refine ⟨?_, ?_, ?_, ?_⟩ <;> intros <;> simp_all [cosineSimilarity]

/-- Witness for C4: each of the four branches exercised at a concrete input. -/
theorem cosineSimilarity_cases_witness :
    cosineSimilarity [(1:ℝ)] [1, 2] = .error .dimensionMismatch ∧
    cosineSimilarity ([] : Vec) ([] : Vec) = .error .emptyVector ∧
    cosineSimilarity [(0:ℝ)] [1] = .ok 0 ∧
    cosineSimilarity [(1:ℝ)] [1] =
      .ok (dotProduct [(1:ℝ)] [1] /
        (Real.sqrt (sumSquares [(1:ℝ)]) * Real.sqrt (sumSquares [(1:ℝ)]))) := by
  refine ⟨(cosineSimilarity_cases [(1:ℝ)] [1, 2]).1 (by decide),
    (cosineSimilarity_cases ([] : Vec) ([] : Vec)).2.1 rfl rfl,
    (cosineSimilarity_cases [(0:ℝ)] [1]).2.2.1 rfl (by decide) (Or.inl ?_),
    (cosineSimilarity_cases [(1:ℝ)] [1]).2.2.2 rfl (by decide) ?_⟩
  · simp [sumSquares]
  · have h1 : sumSquares [(1:ℝ)] = 1 := by norm_num [sumSquares]
    simp [h1]

/-- C3 counterexample: the all-zero vector passes validateVector (it is a
non-empty array of finite numbers) but its self-similarity is exactly 0, which
is not approximately 1 under any tolerance below 1. -/
theorem cosineSimilarity_self_zero_counterexample :
    validateVector [(0:ℝ)] = true ∧
    cosineSimilarity [(0:ℝ)] [(0:ℝ)] = .ok 0 ∧ (0:ℝ) ≠ 1 := by
  refine ⟨rfl, ?_, by norm_num⟩
  simp [cosineSimilarity, sumSquares]

/-- C3 (amended): for every vector that passes validateVector and has nonzero
(squared) magnitude, the cosine similarity with itself is exactly 1 in the
real-number model. -/
theorem cosineSimilarity_self (a : Vec) (hv : validateVector a = true)
    (hz : sumSquares a ≠ 0) : cosineSimilarity a a = .ok 1 := by
  have hpos : 0 < sumSquares a := lt_of_le_of_ne (sumSquares_nonneg a) (Ne.symm hz)
  have hlen : a.length ≠ 0 := by
    simp only [validateVector, decide_eq_true_eq] at hv
    omega
  have hsqrt : Real.sqrt (sumSquares a) ≠ 0 := (Real.sqrt_pos.mpr hpos).ne'
  have hmul : Real.sqrt (sumSquares a) * Real.sqrt (sumSquares a) = sumSquares a :=
    Real.mul_self_sqrt (sumSquares_nonneg a)
  have hnil : ¬ a = [] := fun h => hlen (by simp [h])
  simp [cosineSimilarity, hnil, hsqrt, hlen, dotProduct_self, hmul, div_self hz]

/-- Witness for C3 (amended): a concrete non-zero valid vector has
self-similarity exactly 1. -/
theorem cosineSimilarity_self_witness :
    cosineSimilarity [(1:ℝ), 2] [(1:ℝ), 2] = .ok 1 :=
  cosineSimilarity_self [(1:ℝ), 2] rfl (by norm_num [sumSquares])

/-! ## VectorStore (src/vector/VectorStore.ts) -/

/-- A search hit returned by MemoryVectorStore.searchSimilar (carried-through
metadata is omitted). -/
structure VectorSearchResult where
  id : String
  similarity : ℝ
  content : String

/-- A stored vector entry of MemoryVectorStore: id, quantized embedding and
source content (carried-through metadata and timestamps are omitted). -/
structure VectorEntry where
  id : String
  embedding : Vec
  content : String

/-- One step of the sort performed by results.sort with comparator
(a, b) => b.similarity - a.similarity: the new element is placed before the
first element whose similarity is at most its own, so elements of equal
similarity keep their original relative order (JS Array.sort is stable). -/
noncomputable def insertDesc (x : VectorSearchResult) :
    List VectorSearchResult → List VectorSearchResult
  | [] => [x]
  | y :: ys => if y.similarity ≤ x.similarity then x :: y :: ys else y :: insertDesc x ys

/-- The stable descending-by-similarity sort of searchSimilar, as an insertion
sort; it agrees with every stable sort under the same comparator. -/
noncomputable def sortDesc : List VectorSearchResult → List VectorSearchResult
  | [] => []
  | x :: xs => insertDesc x (sortDesc xs)

lemma insertDesc_perm (x : VectorSearchResult) (l : List VectorSearchResult) :
    List.Perm (insertDesc x l) (x :: l) := by
  induction l with
  | nil => exact List.Perm.refl _
  | cons y ys ih =>
      by_cases h : y.similarity ≤ x.similarity
      · simp [insertDesc, h]
      · simp only [insertDesc, if_neg h]
        exact (ih.cons y).trans (List.Perm.swap x y ys)

lemma sortDesc_perm (l : List VectorSearchResult) : List.Perm (sortDesc l) l := by
  induction l with
  | nil => exact List.Perm.refl _
  | cons x xs ih => exact (insertDesc_perm x (sortDesc xs)).trans (ih.cons x)

lemma mem_sortDesc {r : VectorSearchResult} {l : List VectorSearchResult} :
    r ∈ sortDesc l ↔ r ∈ l := (sortDesc_perm l).mem_iff

lemma insertDesc_pairwise {x : VectorSearchResult} {l : List VectorSearchResult}
    (h : l.Pairwise (fun a b => b.similarity ≤ a.similarity)) :
    (insertDesc x l).Pairwise (fun a b => b.similarity ≤ a.similarity) := by
  induction l with
  | nil => simp [insertDesc]
  | cons y ys ih =>
      rcases List.pairwise_cons.mp h with ⟨hy, hys⟩
      by_cases hc : y.similarity ≤ x.similarity
      · simp only [insertDesc, if_pos hc]
        refine List.pairwise_cons.mpr ⟨?_, h⟩
        intro z hz
        rcases List.mem_cons.mp hz with hz | hz
        · subst hz; exact hc
        · exact le_trans (hy z hz) hc
      · simp only [insertDesc, if_neg hc]
        refine List.pairwise_cons.mpr ⟨?_, ih hys⟩
        intro z hz
        rcases List.mem_cons.mp ((insertDesc_perm x ys).mem_iff.mp hz) with hz | hz
        · subst hz; exact le_of_not_le hc
        · exact hy z hz

lemma sortDesc_pairwise (l : List VectorSearchResult) :
    (sortDesc l).Pairwise (fun a b => b.similarity ≤ a.similarity) := by
  induction l with
  | nil => simp [sortDesc]
  | cons x xs ih => exact insertDesc_pairwise ih

/-- Stability of the insertion step: pairs of equal similarity respect any
relation R that held between the new element and everything already present,
and between the already-present elements themselves. -/
lemma insertDesc_pairwise_tie {R : VectorSearchResult → VectorSearchResult → Prop}
    {x : VectorSearchResult} {l : List VectorSearchResult}
    (hx : ∀ y ∈ l, R x y)
    (h : l.Pairwise (fun a b => a.similarity = b.similarity → R a b)) :
    (insertDesc x l).Pairwise (fun a b => a.similarity = b.similarity → R a b) := by
  induction l with
  | nil => simp [insertDesc]
  | cons y ys ih =>
      rcases List.pairwise_cons.mp h with ⟨hy, hys⟩
      by_cases hc : y.similarity ≤ x.similarity
      · simp only [insertDesc, if_pos hc]
        refine List.pairwise_cons.mpr ⟨?_, h⟩
        intro z hz _
        exact hx z hz
      · simp only [insertDesc, if_neg hc]
        refine List.pairwise_cons.mpr
          ⟨?_, ih (fun z hz => hx z (List.mem_cons_of_mem y hz)) hys⟩
        intro z hz heq
        rcases List.mem_cons.mp ((insertDesc_perm x ys).mem_iff.mp hz) with hz | hz
        · subst hz; exact absurd (le_of_eq heq) hc
        · exact hy z hz heq

/-- Stability of the whole sort: the sorted list respects, on pairs of equal
similarity, any relation R that was pairwise true of the input. -/
lemma sortDesc_pairwise_tie {R : VectorSearchResult → VectorSearchResult → Prop}
    {l : List VectorSearchResult} (h : l.Pairwise R) :
    (sortDesc l).Pairwise (fun a b => a.similarity = b.similarity → R a b) := by
  induction l with
  | nil => simp [sortDesc]
  | cons x xs ih =>
      rcases List.pairwise_cons.mp h with ⟨hx, hxs⟩
      exact insertDesc_pairwise_tie
        (fun y hy => hx y (mem_sortDesc.mp hy)) (ih hxs)

/-- The per-entry body of searchSimilar's scan loop: the similarity to the
query is computed, exceptions (e.g. a dimension mismatch with the stored
vector) are caught and the entry skipped, and the entry is kept only when
similarity ≥ threshold. -/
noncomputable def candidateResult (q : Vec) (threshold : ℝ) (e : VectorEntry) :
    Option VectorSearchResult :=
  match cosineSimilarity q e.embedding with
  | .ok s => if threshold ≤ s then some ⟨e.id, s, e.content⟩ else none
  | .error _ => none

/-- The retained (entry, similarity) pairs of searchSimilar's scan, in store
insertion order. -/
noncomputable def candidateResults (store : List VectorEntry) (q : Vec)
    (threshold : ℝ) : List VectorSearchResult :=
  store.filterMap (candidateResult q threshold)

/-- MemoryVectorStore.searchSimilar (src/vector/VectorStore.ts lines 65-100):
validate the query, shortcut the empty store, scan every entry, filter by
threshold, stable-sort descending by similarity and truncate to the limit. -/
noncomputable def searchSimilar (store : List VectorEntry) (q : Vec)
    (limit : ℕ) (threshold : ℝ) : Except VError (List VectorSearchResult) :=
  if validateVector q = false then .error .invalidVector
  else if store.length = 0 then .ok []
  else .ok ((sortDesc (candidateResults store q threshold)).take limit)

lemma candidateResult_eq_some {q : Vec} {t : ℝ} {e : VectorEntry}
    {r : VectorSearchResult} (h : candidateResult q t e = some r) :
    t ≤ r.similarity ∧ r.id = e.id := by
  unfold candidateResult at h
  split at h
  next s hcs =>
    split at h
    next hts => cases h; exact ⟨hts, rfl⟩
    next hts => cases h
  next err hcs => cases h

lemma candidateResults_id_mem {store : List VectorEntry} {q : Vec} {t : ℝ}
    {r : VectorSearchResult} (h : r ∈ candidateResults store q t) :
    r.id ∈ store.map VectorEntry.id := by
  rcases List.mem_filterMap.mp h with ⟨e, he, hr⟩
  rcases candidateResult_eq_some hr with ⟨_, hid⟩
  exact hid ▸ List.mem_map_of_mem VectorEntry.id he

/-- With pairwise-distinct store ids, the candidate list is strictly increasing
in store position. -/
lemma candidateResults_pairwise_index {store : List VectorEntry} {q : Vec} {t : ℝ}
    (hnd : (store.map VectorEntry.id).Nodup) :
    (candidateResults store q t).Pairwise (fun a b =>
      (store.map VectorEntry.id).indexOf a.id <
        (store.map VectorEntry.id).indexOf b.id) := by
  induction store with
  | nil => exact List.Pairwise.nil
  | cons e s ih =>
      simp only [List.map_cons, List.nodup_cons] at hnd
      rcases hnd with ⟨hni, hnd⟩
      have hstep : ∀ {r : VectorSearchResult}, r ∈ candidateResults s q t →
          (e.id :: s.map VectorEntry.id).indexOf r.id =
            (s.map VectorEntry.id).indexOf r.id + 1 := by
        intro r hr
        have hidmem : r.id ∈ s.map VectorEntry.id := candidateResults_id_mem hr
        have hne : e.id ≠ r.id := fun h => hni (h ▸ hidmem)
        exact List.indexOf_cons_ne _ hne
      have htail : (candidateResults s q t).Pairwise (fun a b =>
          (e.id :: s.map VectorEntry.id).indexOf a.id <
            (e.id :: s.map VectorEntry.id).indexOf b.id) := by
        refine List.Pairwise.imp_of_mem ?_ (ih hnd)
        intro a b ha hb hab
        rw [hstep ha, hstep hb]
        omega
      rcases hcr : candidateResult q t e with _ | c
      · simpa [candidateResults, List.filterMap_cons, hcr, List.map_cons] using htail
      · have hcid : c.id = e.id := (candidateResult_eq_some hcr).2
        simp only [candidateResults, List.filterMap_cons, hcr, List.map_cons]
        refine List.pairwise_cons.mpr ⟨?_, htail⟩
        intro b hb
        have hb1 := hstep hb
        have hc0 : (e.id :: s.map VectorEntry.id).indexOf c.id = 0 := by
          rw [hcid]; exact List.indexOf_cons_self _ _
        rw [hc0, hb1]
        omega

lemma candidateResults_threshold {store : List VectorEntry} {q : Vec} {t : ℝ}
    {r : VectorSearchResult} (h : r ∈ candidateResults store q t) :
    t ≤ r.similarity := by
  rcases List.mem_filterMap.mp h with ⟨e, _, hr⟩
  exact (candidateResult_eq_some hr).1

/-- C1: searchSimilar fails with InvalidVector on an invalid query, returns []
on an empty store, and otherwise returns only hits of similarity ≥ threshold,
sorted non-increasingly by similarity, with equal-similarity hits in store
insertion order, and at most limit results. -/
theorem searchSimilar_spec (store : List VectorEntry) (q : Vec) (L : ℕ) (t : ℝ) :
    (validateVector q = false → searchSimilar store q L t = .error .invalidVector) ∧
    (validateVector q = true → store = [] → searchSimilar store q L t = .ok []) ∧
    (∀ res, searchSimilar store q L t = .ok res →
      (∀ r ∈ res, t ≤ r.similarity) ∧
      res.Pairwise (fun a b => b.similarity ≤ a.similarity) ∧
      res.length ≤ L ∧
      ((store.map VectorEntry.id).Nodup →
        res.Pairwise (fun a b => a.similarity = b.similarity →
          (store.map VectorEntry.id).indexOf a.id <
            (store.map VectorEntry.id).indexOf b.id))) := by
  refine ⟨fun hv => by simp [searchSimilar, hv],
    fun hv hs => by simp [searchSimilar, hv, hs], ?_⟩
  intro res hres
  by_cases hv : validateVector q = false
  · simp [searchSimilar, hv] at hres
  · rw [searchSimilar, if_neg hv] at hres
    by_cases hs : store.length = 0
    · rw [if_pos hs] at hres
      cases hres
      simp
    · rw [if_neg hs] at hres
      cases hres
      refine ⟨?_, ?_, ?_, ?_⟩
      · intro r hr
        exact candidateResults_threshold
          (mem_sortDesc.mp (List.mem_of_mem_take hr))
      · exact (sortDesc_pairwise _).sublist (List.take_sublist _ _)
      · exact List.length_take_le _ _
      · intro hnd
        exact (sortDesc_pairwise_tie (candidateResults_pairwise_index hnd)).sublist
          (List.take_sublist _ _)

lemma sqrt_four : Real.sqrt 4 = 2 := by
  rw [show (4:ℝ) = 2 ^ 2 by norm_num, Real.sqrt_sq (by norm_num)]

lemma sqrt_nine : Real.sqrt 9 = 3 := by
  rw [show (9:ℝ) = 3 ^ 2 by norm_num, Real.sqrt_sq (by norm_num)]

lemma cosSim_one_two : cosineSimilarity [(1:ℝ)] [2] = .ok 1 := by
  have hs1 : sumSquares [(1:ℝ)] = 1 := by norm_num [sumSquares]
  have hs2 : sumSquares [(2:ℝ)] = 4 := by norm_num [sumSquares]
  have hd : dotProduct [(1:ℝ)] [2] = 2 := by norm_num [dotProduct]
  simp [cosineSimilarity, hs1, hs2, hd, Real.sqrt_one, sqrt_four]

lemma cosSim_one_three : cosineSimilarity [(1:ℝ)] [3] = .ok 1 := by
  have hs1 : sumSquares [(1:ℝ)] = 1 := by norm_num [sumSquares]
  have hs2 : sumSquares [(3:ℝ)] = 9 := by norm_num [sumSquares]
  have hd : dotProduct [(1:ℝ)] [3] = 3 := by norm_num [dotProduct]
  simp [cosineSimilarity, hs1, hs2, hd, Real.sqrt_one, sqrt_nine]

lemma searchSimilar_concrete :
    searchSimilar [⟨"a", [2], "x"⟩, ⟨"b", [3], "y"⟩] [(1:ℝ)] 5 0 =
      .ok [⟨"a", 1, "x"⟩, ⟨"b", 1, "y"⟩] := by
  have h2 : candidateResult [(1:ℝ)] 0 ⟨"a", [2], "x"⟩ = some ⟨"a", 1, "x"⟩ := by
    simp [candidateResult, cosSim_one_two]
  have h3 : candidateResult [(1:ℝ)] 0 ⟨"b", [3], "y"⟩ = some ⟨"b", 1, "y"⟩ := by
    simp [candidateResult, cosSim_one_three]
  simp [searchSimilar, validateVector, candidateResults, List.filterMap_cons, h2, h3,
    sortDesc, insertDesc]

/-- Witness for C1: the three branches of searchSimilar_spec exercised at
concrete inputs; the third on a two-entry store where both hits have
similarity exactly 1 (a tie resolved in store insertion order). -/
theorem searchSimilar_spec_witness :
    searchSimilar [] ([] : Vec) 5 0 = .error .invalidVector ∧
    searchSimilar [] [(1:ℝ)] 5 0 = .ok [] ∧
    (([⟨"a", 1, "x"⟩, ⟨"b", 1, "y"⟩] : List VectorSearchResult).Pairwise
        (fun a b => b.similarity ≤ a.similarity) ∧
      ([⟨"a", 1, "x"⟩, ⟨"b", 1, "y"⟩] : List VectorSearchResult).length ≤ 5 ∧
      ([⟨"a", 1, "x"⟩, ⟨"b", 1, "y"⟩] : List VectorSearchResult).Pairwise
        (fun a b => a.similarity = b.similarity →
          (([⟨"a", [2], "x"⟩, ⟨"b", [3], "y"⟩] : List VectorEntry).map
              VectorEntry.id).indexOf a.id <
            (([⟨"a", [2], "x"⟩, ⟨"b", [3], "y"⟩] : List VectorEntry).map
              VectorEntry.id).indexOf b.id)) := by
  refine ⟨(searchSimilar_spec [] [] 5 0).1 rfl,
    (searchSimilar_spec [] [(1:ℝ)] 5 0).2.1 rfl rfl, ?_⟩
  have h := (searchSimilar_spec [⟨"a", [2], "x"⟩, ⟨"b", [3], "y"⟩] [(1:ℝ)] 5 0).2.2
    _ searchSimilar_concrete
  exact ⟨h.2.1, h.2.2.1, h.2.2.2 (by decide)⟩

/-! ## Data model (src/types/memory.ts) -/

/-- The MemoryType enum: global | conversation | temporary. -/
inductive MemoryType where
  | global
  | conversation
  | temporary
  deriving DecidableEq

/-- A MemoryEntry record.  Metadata values are modelled by their String(...)
image, which is all the index ever branches on. -/
structure MemoryEntry where
  id : String
  content : String
  type : MemoryType
  conversationId : Option String
  createdAt : String
  updatedAt : String
  tags : List String
  metadata : List (String × String)
  embedding : Option Vec

/-! ## RecordCache (src/utils/MemoryCache.ts) -/

/-- MemoryCache state: the underlying insertion-ordered Map (least-recently
used entries at the front) plus capacity and the hit/miss counters.  The
stored last-access timestamp is not modelled: eviction and recency use only
the Map iteration order (get re-inserts at the back, set appends at the
back). -/
structure CacheState where
  entries : List (String × MemoryEntry)
  maxSize : ℕ
  hitCount : ℕ
  missCount : ℕ

def emptyCache (maxSize : ℕ) : CacheState := ⟨[], maxSize, 0, 0⟩

/-- MemoryCache.get (src/utils/MemoryCache.ts lines 20-32): on a hit the
entry moves to the most-recent position and hitCount increments; on a miss
missCount increments and the entries are untouched. -/
def cacheGet (c : CacheState) (id : String) : Option MemoryEntry × CacheState :=
  match c.entries.find? (fun p => p.1 == id) with
  | some p =>
      (some p.2,
        { c with entries := c.entries.filter (fun q => !(q.1 == id)) ++ [p],
                 hitCount := c.hitCount + 1 })
  | none => (none, { c with missCount := c.missCount + 1 })

/-- MemoryCache.set (src/utils/MemoryCache.ts lines 37-56): delete a present
key; when at capacity, read the least-recently-used (front) key and evict it
only if it is truthy — the source guards the delete with if (oldestKey), so
an empty-string oldest key (or the undefined key of an empty map) is not
evicted; then append the new entry at the back.  Deleting the front key
removes the front entry, keys of a Map being unique. -/
def cacheSet (c : CacheState) (id : String) (e : MemoryEntry) : CacheState :=
  let l0 := if c.entries.any (fun p => p.1 == id) then
      c.entries.filter (fun q => !(q.1 == id)) else c.entries
  let l1 := if c.maxSize ≤ l0.length then
      match l0 with
      | [] => []
      | q :: tl => if q.1 = "" then q :: tl else tl
    else l0
  { c with entries := l1 ++ [(id, e)] }

/-- MemoryCache.delete. -/
def cacheDelete (c : CacheState) (id : String) : CacheState :=
  { c with entries := c.entries.filter (fun q => !(q.1 == id)) }

/-- Sequential insertion of a batch of (id, record) pairs via set
(MemoryCache.setMultiple). -/
def cacheSetAll (c : CacheState) (l : List (String × MemoryEntry)) : CacheState :=
  l.foldl (fun c p => cacheSet c p.1 p.2) c

lemma cacheSet_maxSize (c : CacheState) (id : String) (e : MemoryEntry) :
    (cacheSet c id e).maxSize = c.maxSize := rfl

lemma cacheSetAll_maxSize (l : List (String × MemoryEntry)) (c : CacheState) :
    (cacheSetAll c l).maxSize = c.maxSize := by
  induction l generalizing c with
  | nil => rfl
  | cons p l ih => exact ih (cacheSet c p.1 p.2)

/-- Inserting fresh distinct ids below capacity never triggers the eviction
branch: the batch is appended in order. -/
lemma cacheSetAll_fill : ∀ (l : List (String × MemoryEntry)) (c : CacheState),
    (((c.entries ++ l).map Prod.fst).Nodup) →
    c.entries.length + l.length ≤ c.maxSize →
    (cacheSetAll c l).entries = c.entries ++ l := by
  intro l
  induction l with
  | nil =>
      intro c _ _
      simp [cacheSetAll]
  | cons p l ih =>
      intro c hnd hlen
      have hfresh : ∀ q ∈ c.entries, q.1 ≠ p.1 := by
        intro q hq heq
        have hnd2 := hnd
        rw [List.map_append] at hnd2
        rcases List.nodup_append.mp hnd2 with ⟨_, _, hdisj⟩
        exact hdisj (List.mem_map_of_mem Prod.fst hq) (by simp [heq])
      have hany : c.entries.any (fun q => q.1 == p.1) = false := by
        rw [List.any_eq_false]
        intro q hq
        simpa using hfresh q hq
      have hcap : ¬ c.maxSize ≤ c.entries.length := by
        simp only [List.length_cons] at hlen
        omega
      have hset' : (cacheSet c p.1 p.2).entries = c.entries ++ [(p.1, p.2)] := by
        simp [cacheSet, hany, hcap]
      have hstep : cacheSetAll c (p :: l) = cacheSetAll (cacheSet c p.1 p.2) l := rfl
      have hsub : (((cacheSet c p.1 p.2).entries ++ l).map Prod.fst).Nodup := by
        rw [hset']
        simpa [List.append_assoc] using hnd
      have hlen' : (cacheSet c p.1 p.2).entries.length + l.length ≤
          (cacheSet c p.1 p.2).maxSize := by
        rw [hset', cacheSet_maxSize]
        simp only [List.length_append, List.length_singleton, List.length_cons,
          List.length_nil] at hlen ⊢
        omega
      rw [hstep, ih (cacheSet c p.1 p.2) hsub hlen', hset']
      simp [List.append_assoc]

/-- The entries after a set with a fresh id: the guarded eviction applied to
the old entries, with the new entry appended. -/
lemma cacheSet_entries (c : CacheState) (id : String) (e : MemoryEntry)
    (hany : c.entries.any (fun p => p.1 == id) = false) :
    (cacheSet c id e).entries =
      (if c.maxSize ≤ c.entries.length then
          match c.entries with
          | [] => []
          | q :: tl => if q.1 = "" then q :: tl else tl
        else c.entries) ++ [(id, e)] := by
  simp [cacheSet, hany]

/-- C5: inserting N+1 records with pairwise-distinct ids, the first of which
is non-empty (truthy), into an empty capacity-N cache evicts exactly the
first-inserted record, leaves the other N present in order, and a get on the
evicted key reports a miss (missCount increments, entries untouched).  The
non-emptiness of the first id matters: set's eviction is guarded by the
truthiness of the oldest key. -/
theorem cache_lru_eviction (N : ℕ) (hN : 1 ≤ N) (p : String × MemoryEntry)
    (rest : List (String × MemoryEntry)) (hlen : rest.length = N)
    (hnd : ((p :: rest).map Prod.fst).Nodup) (hp : p.1 ≠ "") :
    (cacheSetAll (emptyCache N) (p :: rest)).entries = rest ∧
    cacheGet (cacheSetAll (emptyCache N) (p :: rest)) p.1 =
      (none, { cacheSetAll (emptyCache N) (p :: rest) with
                missCount := (cacheSetAll (emptyCache N) (p :: rest)).missCount + 1 }) := by
  have hentries : (cacheSetAll (emptyCache N) (p :: rest)).entries = rest := by
    rcases List.eq_nil_or_concat rest with hr | ⟨init, x, hx⟩
    · rw [hr] at hlen
      simp only [List.length_nil] at hlen
      omega
    · rw [List.concat_eq_append] at hx
      subst hx
      have hinit : init.length + 1 = N := by
        simp only [List.length_append, List.length_singleton] at hlen
        omega
      have hsplit : cacheSetAll (emptyCache N) (p :: (init ++ [x])) =
          cacheSet (cacheSetAll (emptyCache N) (p :: init)) x.1 x.2 := by
        show cacheSetAll (emptyCache N) ((p :: init) ++ [x]) = _
        simp only [cacheSetAll, List.foldl_append, List.foldl_cons, List.foldl_nil]
      have hnd1 : (((emptyCache N).entries ++ (p :: init)).map Prod.fst).Nodup := by
        simp only [emptyCache, List.nil_append]
        refine List.Nodup.sublist (List.Sublist.map _ ?_) hnd
        exact List.cons_sublist_cons.mpr (List.sublist_append_left init [x])
      have hlenfill : (emptyCache N).entries.length + (p :: init).length ≤
          (emptyCache N).maxSize := by
        show 0 + (init.length + 1) ≤ N
        omega
      have hmid : (cacheSetAll (emptyCache N) (p :: init)).entries = p :: init :=
        cacheSetAll_fill (p :: init) (emptyCache N) hnd1 hlenfill
      have hms : (cacheSetAll (emptyCache N) (p :: init)).maxSize = N :=
        cacheSetAll_maxSize (p :: init) (emptyCache N)
      have hx1 : x.1 ∉ (p :: init).map Prod.fst := by
        have h2 := hnd
        rw [show ((p :: (init ++ [x])).map Prod.fst) =
            ((p :: init).map Prod.fst) ++ [x.1] by simp] at h2
        rcases List.nodup_append.mp h2 with ⟨_, _, hdisj⟩
        intro hmem
        exact hdisj hmem (List.mem_singleton.mpr rfl)
      have hany : (cacheSetAll (emptyCache N) (p :: init)).entries.any
          (fun q => q.1 == x.1) = false := by
        rw [hmid, List.any_eq_false]
        intro q hq
        simp only [beq_iff_eq]
        intro heq
        exact hx1 (heq ▸ List.mem_map_of_mem Prod.fst hq)
      rw [hsplit, cacheSet_entries _ _ _ hany, hms, hmid]
      rw [if_pos (by simp only [List.length_cons]; omega)]
      show (if p.1 = "" then p :: init else init) ++ [(x.1, x.2)] = init ++ [x]
      rw [if_neg hp]
  refine ⟨hentries, ?_⟩
  have hni : p.1 ∉ rest.map Prod.fst := by
    simp only [List.map_cons, List.nodup_cons] at hnd
    exact hnd.1
  have hfind : (cacheSetAll (emptyCache N) (p :: rest)).entries.find?
      (fun q => q.1 == p.1) = none := by
    rw [hentries, List.find?_eq_none]
    intro q hq
    simp only [beq_iff_eq]
    intro heq
    exact hni (heq ▸ List.mem_map_of_mem Prod.fst hq)
  simp [cacheGet, hfind]

/-- A concrete record used by witnesses. -/
def sampleEntry (i : String) : MemoryEntry :=
  ⟨i, "hello world", .global, none,
    "2025-01-01T00:00:00.000Z", "2025-01-01T00:00:00.000Z", [], [], none⟩

/-- Witness for C5: capacity 1, two insertions; "a" is evicted, "b" stays,
and getting "a" misses. -/
theorem cache_lru_eviction_witness :
    (cacheSetAll (emptyCache 1) [("a", sampleEntry "a"), ("b", sampleEntry "b")]).entries
        = [("b", sampleEntry "b")] ∧
    cacheGet (cacheSetAll (emptyCache 1) [("a", sampleEntry "a"), ("b", sampleEntry "b")])
        "a" =
      (none, { cacheSetAll (emptyCache 1) [("a", sampleEntry "a"), ("b", sampleEntry "b")] with
        missCount := (cacheSetAll (emptyCache 1)
          [("a", sampleEntry "a"), ("b", sampleEntry "b")]).missCount + 1 }) :=
  cache_lru_eviction 1 le_rfl ("a", sampleEntry "a") [("b", sampleEntry "b")] rfl
    (by decide) (by decide)

/-- C5 counterexample: with capacity 1 and the empty string as the first
identifier, the eviction in MemoryCache.set is skipped — the oldest key is
falsy, so if (oldestKey) guards the delete away — and the cache keeps both
entries, exceeding its capacity; a subsequent get on the first key hits
instead of missing. -/
theorem cache_lru_eviction_counterexample :
    (cacheSetAll (emptyCache 1)
        [("", sampleEntry "e"), ("b", sampleEntry "b")]).entries
      = [("", sampleEntry "e"), ("b", sampleEntry "b")] ∧
    (cacheGet (cacheSetAll (emptyCache 1)
        [("", sampleEntry "e"), ("b", sampleEntry "b")]) "").1
      = some (sampleEntry "e") :=
  ⟨rfl, rfl⟩

/-! ## RecordIndex (src/utils/MemoryIndex.ts): one index dimension -/

/-- One dimension of the inverted index: an insertion-ordered Map from keys to
insertion-ordered duplicate-free Sets of record ids. -/
abbrev IdxMap (κ : Type) := List (κ × List String)

section IndexMap

variable {κ : Type} [DecidableEq κ]

/-- MemoryIndex.addToIndex (lines 228-233): create the key with a singleton
set, or add the id to the existing set (JS Set.add appends a new element,
no-op when present). -/
def addToIndex (m : IdxMap κ) (k : κ) (i : String) : IdxMap κ :=
  if m.any (fun p => decide (p.1 = k)) then
    m.map (fun p => if p.1 = k then (p.1, if i ∈ p.2 then p.2 else p.2 ++ [i]) else p)
  else m ++ [(k, [i])]

/-- MemoryIndex.removeFromIndex (lines 238-246): delete the id from the set of
the key, deleting the key itself when the set becomes empty. -/
def removeFromIndex (m : IdxMap κ) (k : κ) (i : String) : IdxMap κ :=
  match m.find? (fun p => decide (p.1 = k)) with
  | none => m
  | some p =>
      let l2 := p.2.erase i
      if l2 = [] then m.filter (fun q => decide (q.1 ≠ k))
      else m.map (fun q => if q.1 = k then (q.1, l2) else q)

/-- Left-to-right processing of a key sequence through addToIndex, as in the
token/tag/metadata loops of addMemory. -/
def addSeq (m : IdxMap κ) (ks : List κ) (i : String) : IdxMap κ :=
  ks.foldl (fun m k => addToIndex m k i) m

/-- Left-to-right processing of a key sequence through removeFromIndex, as in
the loops of removeMemory. -/
def removeSeq (m : IdxMap κ) (ks : List κ) (i : String) : IdxMap κ :=
  ks.foldl (fun m k => removeFromIndex m k i) m

/-- Map lookup (index.get). -/
def lookupSet (m : IdxMap κ) (k : κ) : Option (List String) :=
  (m.find? (fun p => decide (p.1 = k))).map Prod.snd

/-- Well-formedness maintained by the index code: pairwise-distinct keys (a JS
Map) and no empty id set (a key is deleted as soon as its set empties). -/
def IdxWF (m : IdxMap κ) : Prop := (m.map Prod.fst).Nodup ∧ ∀ p ∈ m, p.2 ≠ []

/-- The id occurs in no set of the map. -/
def idFree (m : IdxMap κ) (i : String) : Prop := ∀ p ∈ m, i ∉ p.2

lemma any_key_iff (m : IdxMap κ) (k : κ) :
    m.any (fun p => decide (p.1 = k)) = true ↔ k ∈ m.map Prod.fst := by
  simp [List.any_eq_true, List.mem_map]

lemma find?_key_none (m : IdxMap κ) (k : κ)
    (h : m.any (fun p => decide (p.1 = k)) = false) :
    m.find? (fun p => decide (p.1 = k)) = none := by
  rw [List.find?_eq_none]
  intro p hp
  rw [List.any_eq_false] at h
  exact h p hp

lemma find?_key_some {m : IdxMap κ} {k : κ} {p : κ × List String}
    (h : m.find? (fun q => decide (q.1 = k)) = some p) : p ∈ m ∧ p.1 = k := by
  refine ⟨List.mem_of_find?_eq_some h, ?_⟩
  have := List.find?_some h
  simpa using this

/-- With pairwise-distinct keys, find? finds exactly the member with that
key. -/
lemma find?_key_of_mem {m : IdxMap κ} {p : κ × List String}
    (hnd : (m.map Prod.fst).Nodup) (hp : p ∈ m) :
    m.find? (fun q => decide (q.1 = p.1)) = some p := by
  induction m with
  | nil => cases hp
  | cons q m ih =>
      simp only [List.map_cons, List.nodup_cons] at hnd
      rcases List.mem_cons.mp hp with rfl | hp2
      · exact List.find?_cons_of_pos _ (by simp)
      · have hne : q.1 ≠ p.1 := by
          intro he
          exact hnd.1 (he ▸ List.mem_map_of_mem Prod.fst hp2)
        rw [List.find?_cons_of_neg _ (by simpa using hne)]
        exact ih hnd.2 hp2

lemma find?_key_unique {m : IdxMap κ} {p : κ × List String}
    (hnd : (m.map Prod.fst).Nodup) (hp : p ∈ m) {q : κ × List String}
    (hq : m.find? (fun r => decide (r.1 = p.1)) = some q) : q = p := by
  rw [find?_key_of_mem hnd hp] at hq
  exact (Option.some_inj.mp hq).symm

lemma keys_map_of_fst_preserved {f : κ × List String → κ × List String}
    (hf : ∀ p, (f p).1 = p.1) (m : IdxMap κ) :
    (m.map f).map Prod.fst = m.map Prod.fst := by
  rw [List.map_map]
  exact List.map_congr_left (fun p _ => hf p)

lemma addToIndex_fun_fst (k : κ) (i : String) (p : κ × List String) :
    ((if p.1 = k then (p.1, if i ∈ p.2 then p.2 else p.2 ++ [i]) else p) :
      κ × List String).1 = p.1 := by
  split <;> rfl

lemma addToIndex_keys (m : IdxMap κ) (k : κ) (i : String) :
    (addToIndex m k i).map Prod.fst =
      if k ∈ m.map Prod.fst then m.map Prod.fst else m.map Prod.fst ++ [k] := by
  by_cases h : m.any (fun p => decide (p.1 = k)) = true
  · rw [addToIndex, if_pos h, if_pos ((any_key_iff m k).mp h),
      keys_map_of_fst_preserved (addToIndex_fun_fst k i)]
  · have hk : k ∉ m.map Prod.fst := fun hin =>
      h ((any_key_iff m k).mpr hin)
    rw [addToIndex, if_neg h, if_neg hk]
    simp

lemma addToIndex_wf {m : IdxMap κ} (hwf : IdxWF m) (k : κ) (i : String) :
    IdxWF (addToIndex m k i) := by
  constructor
  · rw [addToIndex_keys]
    split
    · exact hwf.1
    · rw [List.nodup_append]
      refine ⟨hwf.1, List.nodup_singleton k, ?_⟩
      intro a ha hb
      rw [List.mem_singleton] at hb
      subst hb
      exact absurd ha (by assumption)
  · intro p hp
    unfold addToIndex at hp
    split at hp
    · rcases List.mem_map.mp hp with ⟨q, hq, hfq⟩
      subst hfq
      split
      · simp only []
        split
        · exact hwf.2 q hq
        · simp
      · exact hwf.2 q hq
    · rcases List.mem_append.mp hp with hp | hp
      · exact hwf.2 p hp
      · rw [List.mem_singleton] at hp
        subst hp
        simp

/-- Branch equations for addToIndex and removeFromIndex. -/
lemma addToIndex_eq_map {m : IdxMap κ} {k : κ} (i : String)
    (h : m.any (fun p => decide (p.1 = k)) = true) :
    addToIndex m k i =
      m.map (fun p => if p.1 = k then (p.1, if i ∈ p.2 then p.2 else p.2 ++ [i]) else p) := by
  unfold addToIndex
  rw [if_pos h]

lemma addToIndex_eq_append {m : IdxMap κ} {k : κ} (i : String)
    (h : m.any (fun p => decide (p.1 = k)) = false) :
    addToIndex m k i = m ++ [(k, [i])] := by
  unfold addToIndex
  rw [if_neg (by simp [h])]

lemma removeFromIndex_eq_id {m : IdxMap κ} {k : κ} (i : String)
    (hf : m.find? (fun p => decide (p.1 = k)) = none) :
    removeFromIndex m k i = m := by
  unfold removeFromIndex
  rw [hf]

lemma removeFromIndex_eq_filter {m : IdxMap κ} {k : κ} {i : String}
    {p : κ × List String} (hf : m.find? (fun q => decide (q.1 = k)) = some p)
    (hl : p.2.erase i = []) :
    removeFromIndex m k i = m.filter (fun q => decide (q.1 ≠ k)) := by
  unfold removeFromIndex
  rw [hf]
  show (if p.2.erase i = [] then m.filter (fun q => decide (q.1 ≠ k))
    else m.map (fun q => if q.1 = k then (q.1, p.2.erase i) else q)) = _
  rw [if_pos hl]

lemma removeFromIndex_eq_map {m : IdxMap κ} {k : κ} {i : String}
    {p : κ × List String} (hf : m.find? (fun q => decide (q.1 = k)) = some p)
    (hl : p.2.erase i ≠ []) :
    removeFromIndex m k i =
      m.map (fun q => if q.1 = k then (q.1, p.2.erase i) else q) := by
  unfold removeFromIndex
  rw [hf]
  show (if p.2.erase i = [] then m.filter (fun q => decide (q.1 ≠ k))
    else m.map (fun q => if q.1 = k then (q.1, p.2.erase i) else q)) = _
  rw [if_neg hl]

lemma remove_fun_fst (k : κ) (l2 : List String) (p : κ × List String) :
    ((if p.1 = k then (p.1, l2) else p) : κ × List String).1 = p.1 := by
  split <;> rfl

lemma removeFromIndex_wf {m : IdxMap κ} (hwf : IdxWF m) (k : κ) (i : String) :
    IdxWF (removeFromIndex m k i) := by
  rcases hf : m.find? (fun q => decide (q.1 = k)) with _ | p
  · rw [removeFromIndex_eq_id i hf]
    exact hwf
  · by_cases hl : p.2.erase i = []
    · rw [removeFromIndex_eq_filter hf hl]
      constructor
      · exact List.Nodup.sublist (List.Sublist.map _ (List.filter_sublist m)) hwf.1
      · intro q hq
        exact hwf.2 q (List.mem_of_mem_filter hq)
    · rw [removeFromIndex_eq_map hf hl]
      constructor
      · rw [keys_map_of_fst_preserved (remove_fun_fst k _)]
        exact hwf.1
      · intro q hq
        rcases List.mem_map.mp hq with ⟨r, hr, hfr⟩
        subst hfr
        split
        · exact hl
        · exact hwf.2 r hr

lemma addSeq_wf {m : IdxMap κ} (hwf : IdxWF m) (ks : List κ) (i : String) :
    IdxWF (addSeq m ks i) := by
  induction ks generalizing m with
  | nil => exact hwf
  | cons k ks ih => exact ih (addToIndex_wf hwf k i)

lemma removeSeq_wf {m : IdxMap κ} (hwf : IdxWF m) (ks : List κ) (i : String) :
    IdxWF (removeSeq m ks i) := by
  induction ks generalizing m with
  | nil => exact hwf
  | cons k ks ih => exact ih (removeFromIndex_wf hwf k i)

/-- The id is present in the set stored under key k. -/
def memSet (m : IdxMap κ) (k : κ) (i : String) : Prop :=
  ∃ l, lookupSet m k = some l ∧ i ∈ l

/-- The id is absent from the set stored under key k (if any). -/
def freeAt (m : IdxMap κ) (k : κ) (i : String) : Prop :=
  ∀ l, lookupSet m k = some l → i ∉ l

lemma any_true_find?_some {m : IdxMap κ} {pred : κ × List String → Bool}
    (h : m.any pred = true) : ∃ p, m.find? pred = some p := by
  rcases hf : m.find? pred with _ | p
  · rw [List.find?_eq_none] at hf
    rcases List.any_eq_true.mp h with ⟨q, hq, hpq⟩
    exact absurd hpq (by simpa using hf q hq)
  · exact ⟨p, rfl⟩

lemma comp_pred_of_fst_preserved {f : κ × List String → κ × List String}
    (hf : ∀ p, (f p).1 = p.1) (k : κ) :
    ((fun p : κ × List String => decide (p.1 = k)) ∘ f) =
      fun p : κ × List String => decide (p.1 = k) := by
  funext p
  simp only [Function.comp_apply]
  rw [hf p]

lemma find?_map_of_fst_preserved {f : κ × List String → κ × List String}
    (hf : ∀ p, (f p).1 = p.1) (m : IdxMap κ) (k : κ) :
    (m.map f).find? (fun p => decide (p.1 = k)) =
      (m.find? (fun p => decide (p.1 = k))).map f := by
  rw [List.find?_map, comp_pred_of_fst_preserved hf]

lemma any_key_map_of_fst_preserved {f : κ × List String → κ × List String}
    (hf : ∀ p, (f p).1 = p.1) (m : IdxMap κ) (k : κ) :
    (m.map f).any (fun p => decide (p.1 = k)) = m.any (fun p => decide (p.1 = k)) := by
  rw [List.any_map, comp_pred_of_fst_preserved hf k]

lemma lookup_addToIndex_ne {m : IdxMap κ} {u k : κ} (h : u ≠ k) (i : String) :
    lookupSet (addToIndex m u i) k = lookupSet m k := by
  by_cases ha : m.any (fun p => decide (p.1 = u)) = true
  · rw [addToIndex_eq_map i ha]
    unfold lookupSet
    rw [find?_map_of_fst_preserved (addToIndex_fun_fst u i)]
    rcases hf : m.find? (fun p => decide (p.1 = k)) with _ | p
    · rw [hf]; rfl
    · rw [hf]
      have hp := find?_key_some hf
      simp only [Option.map_some']
      rw [if_neg (by rw [hp.2]; exact h.symm)]
  · rw [addToIndex_eq_append i (by rwa [Bool.not_eq_true] at ha)]
    unfold lookupSet
    rw [List.find?_append]
    have h2 : List.find? (fun p => decide (p.1 = k)) [(u, [i])] = none := by
      simp [h]
    rw [h2, Option.or_none]

lemma memSet_addToIndex_self (m : IdxMap κ) (k : κ) (i : String) :
    memSet (addToIndex m k i) k i := by
  by_cases ha : m.any (fun p => decide (p.1 = k)) = true
  · rcases any_true_find?_some ha with ⟨p, hp⟩
    have hpk := find?_key_some hp
    refine ⟨if i ∈ p.2 then p.2 else p.2 ++ [i], ?_, by split <;> simp_all⟩
    rw [addToIndex_eq_map i ha]
    unfold lookupSet
    rw [find?_map_of_fst_preserved (addToIndex_fun_fst k i), hp]
    simp only [Option.map_some']
    rw [if_pos hpk.2]
  · refine ⟨[i], ?_, by simp⟩
    rw [addToIndex_eq_append i (by rwa [Bool.not_eq_true] at ha)]
    unfold lookupSet
    rw [List.find?_append, find?_key_none m k (by rwa [Bool.not_eq_true] at ha)]
    simp

lemma memSet_addToIndex_mono {m : IdxMap κ} {k : κ} {i : String}
    (h : memSet m k i) (u : κ) : memSet (addToIndex m u i) k i := by
  by_cases huk : u = k
  · subst huk
    exact memSet_addToIndex_self m u i
  · rcases h with ⟨l, hl, hi⟩
    exact ⟨l, by rw [lookup_addToIndex_ne huk i]; exact hl, hi⟩

lemma find?_filter_ne {u k : κ} (h : u ≠ k) : ∀ (m : IdxMap κ),
    (m.filter (fun q => decide (q.1 ≠ u))).find? (fun p => decide (p.1 = k)) =
      m.find? (fun p => decide (p.1 = k))
  | [] => rfl
  | q :: m => by
      by_cases hq : q.1 = u
      · have hqknot : ¬ q.1 = k := fun he => h (by rw [← hq, he])
        rw [List.filter_cons_of_neg (by simp [hq]),
          List.find?_cons_of_neg _ (by simpa using hqknot), find?_filter_ne h m]
      · rw [List.filter_cons_of_pos (by simpa using hq)]
        by_cases hk : q.1 = k
        · rw [List.find?_cons_of_pos _ (by simpa using hk),
            List.find?_cons_of_pos _ (by simpa using hk)]
        · rw [List.find?_cons_of_neg _ (by simpa using hk),
            List.find?_cons_of_neg _ (by simpa using hk), find?_filter_ne h m]

lemma lookup_removeFromIndex_ne {m : IdxMap κ} {u k : κ} (h : u ≠ k) (i : String) :
    lookupSet (removeFromIndex m u i) k = lookupSet m k := by
  rcases hf : m.find? (fun q => decide (q.1 = u)) with _ | p
  · rw [removeFromIndex_eq_id i hf]
  · by_cases hl : p.2.erase i = []
    · rw [removeFromIndex_eq_filter hf hl]
      unfold lookupSet
      rw [find?_filter_ne h]
    · rw [removeFromIndex_eq_map hf hl]
      unfold lookupSet
      rw [find?_map_of_fst_preserved (remove_fun_fst u _)]
      rcases hf2 : m.find? (fun q => decide (q.1 = k)) with _ | r
      · rw [hf2]; rfl
      · rw [hf2]
        have hr := find?_key_some hf2
        simp only [Option.map_some']
        rw [if_neg (by rw [hr.2]; exact h.symm)]

/-- JS Set.add of an id already present is a no-op, so addToIndex of a present
id leaves the map unchanged. -/
lemma addToIndex_noop {m : IdxMap κ} (hnd : (m.map Prod.fst).Nodup) {k : κ}
    {i : String} (h : memSet m k i) : addToIndex m k i = m := by
  rcases h with ⟨l, hl, hi⟩
  unfold lookupSet at hl
  rcases hf : m.find? (fun p => decide (p.1 = k)) with _ | p
  · rw [hf] at hl; cases hl
  · rw [hf] at hl
    have hpk := find?_key_some hf
    have hl2 : p.2 = l := by simpa using hl
    subst hl2
    have hany : m.any (fun q => decide (q.1 = k)) = true :=
      (any_key_iff m k).mpr (hpk.2 ▸ List.mem_map_of_mem Prod.fst hpk.1)
    rw [addToIndex_eq_map i hany]
    refine (List.map_congr_left ?_).trans (List.map_id m)
    intro q hq
    by_cases hqk : q.1 = k
    · have hq2 : q = p := by
        have h3 := find?_key_of_mem hnd hq
        rw [hqk] at h3
        rw [h3] at hf
        exact Option.some_inj.mp hf
      subst hq2
      rw [if_pos hqk, if_pos hi]
      rfl
    · rw [if_neg hqk]
      rfl

/-- Removing an id that is absent from the key's set is a no-op. -/
lemma removeFromIndex_noop {m : IdxMap κ} (hwf : IdxWF m) {k : κ} {i : String}
    (h : freeAt m k i) : removeFromIndex m k i = m := by
  rcases hf : m.find? (fun p => decide (p.1 = k)) with _ | p
  · exact removeFromIndex_eq_id i hf
  · have hpk := find?_key_some hf
    have hni : i ∉ p.2 := h p.2 (by unfold lookupSet; rw [hf]; rfl)
    have herase : p.2.erase i = p.2 := List.erase_of_not_mem hni
    rw [removeFromIndex_eq_map hf (by rw [herase]; exact hwf.2 p hpk.1), herase]
    refine (List.map_congr_left ?_).trans (List.map_id m)
    intro q hq
    by_cases hqk : q.1 = k
    · have hq2 : q = p := by
        have h3 := find?_key_of_mem hwf.1 hq
        rw [hqk] at h3
        rw [h3] at hf
        exact Option.some_inj.mp hf
      subst hq2
      rw [if_pos hqk]
      rfl
    · rw [if_neg hqk]
      rfl

/-- Adding a fresh id under a key and removing it again restores the map
exactly, provided the map is well-formed and did not contain the id. -/
lemma remove_add_cancel {m : IdxMap κ} (hwf : IdxWF m) {i : String}
    (hfree : idFree m i) (k : κ) :
    removeFromIndex (addToIndex m k i) k i = m := by
  by_cases ha : m.any (fun p => decide (p.1 = k)) = true
  · rcases any_true_find?_some ha with ⟨p, hp⟩
    have hpk := find?_key_some hp
    have hni : i ∉ p.2 := hfree p hpk.1
    have hne : p.2 ≠ [] := hwf.2 p hpk.1
    rw [addToIndex_eq_map i ha]
    have hf2 : (m.map (fun p => if p.1 = k then
        (p.1, if i ∈ p.2 then p.2 else p.2 ++ [i]) else p)).find?
          (fun q => decide (q.1 = k)) = some (p.1, p.2 ++ [i]) := by
      rw [find?_map_of_fst_preserved (addToIndex_fun_fst k i), hp]
      simp only [Option.map_some']
      rw [if_pos hpk.2, if_neg hni]
    have herase : (p.2 ++ [i]).erase i = p.2 := by
      rw [List.erase_append_right _ hni, List.erase_cons_head, List.append_nil]
    rw [removeFromIndex_eq_map hf2 (by rw [herase]; exact hne)]
    simp only [herase]
    rw [List.map_map]
    refine (List.map_congr_left ?_).trans (List.map_id m)
    intro q hq
    simp only [Function.comp_apply]
    by_cases hqk : q.1 = k
    · have hq2 : q = p := by
        have h3 := find?_key_of_mem hwf.1 hq
        rw [hqk] at h3
        rw [h3] at hp
        exact Option.some_inj.mp hp
      subst hq2
      rw [if_pos hqk, if_neg hni]
      show (if ((q.1, q.2 ++ [i]) : κ × List String).1 = k
        then (((q.1, q.2 ++ [i]) : κ × List String).1, q.2) else (q.1, q.2 ++ [i])) = id q
      rw [if_pos hqk]
      rfl
    · rw [if_neg hqk, if_neg hqk]
      rfl
  · have ha2 : m.any (fun p => decide (p.1 = k)) = false := by
      rwa [Bool.not_eq_true] at ha
    rw [addToIndex_eq_append i ha2]
    have hf2 : (m ++ [(k, [i])]).find? (fun q => decide (q.1 = k)) = some (k, [i]) := by
      rw [List.find?_append, find?_key_none m k ha2]
      simp
    have herase : ([i] : List String).erase i = [] := List.erase_cons_head i []
    rw [removeFromIndex_eq_filter hf2 herase, List.filter_append]
    have h1 : (m.filter (fun q => decide (q.1 ≠ k))) = m := by
      rw [List.filter_eq_self]
      intro q hq
      have := List.any_eq_false.mp ha2 q hq
      simpa using this
    have h2 : ([((k, [i]) : κ × List String)].filter (fun q => decide (q.1 ≠ k))) = [] := by
      rw [List.filter_cons_of_neg (by simp)]
      rfl
    rw [h1, h2, List.append_nil]

/-- Removing at one key commutes with adding at a different key. -/
lemma remove_add_comm {m : IdxMap κ} {u t : κ} (hut : u ≠ t) (i : String) :
    removeFromIndex (addToIndex m u i) t i =
      addToIndex (removeFromIndex m t i) u i := by
  have htu : ¬ t = u := fun he => hut he.symm
  by_cases ha : m.any (fun p => decide (p.1 = u)) = true
  · rw [addToIndex_eq_map i ha]
    rcases hft : m.find? (fun q => decide (q.1 = t)) with _ | p
    · have hft2 : (m.map (fun p => if p.1 = u then
          (p.1, if i ∈ p.2 then p.2 else p.2 ++ [i]) else p)).find?
            (fun q => decide (q.1 = t)) = none := by
        rw [find?_map_of_fst_preserved (addToIndex_fun_fst u i), hft]
        rfl
      rw [removeFromIndex_eq_id i hft2, removeFromIndex_eq_id i hft,
        addToIndex_eq_map i ha]
    · have hpt := find?_key_some hft
      have hfp : (if p.1 = u then (p.1, if i ∈ p.2 then p.2 else p.2 ++ [i]) else p) = p := by
        rw [if_neg (by rw [hpt.2]; exact htu)]
      have hft2 : (m.map (fun p => if p.1 = u then
          (p.1, if i ∈ p.2 then p.2 else p.2 ++ [i]) else p)).find?
            (fun q => decide (q.1 = t)) = some p := by
        rw [find?_map_of_fst_preserved (addToIndex_fun_fst u i), hft]
        simp only [Option.map_some']
        rw [hfp]
      by_cases hl : p.2.erase i = []
      · rw [removeFromIndex_eq_filter hft2 hl, removeFromIndex_eq_filter hft hl]
        have hany2 : (m.filter (fun q => decide (q.1 ≠ t))).any
            (fun q => decide (q.1 = u)) = true := by
          rcases List.any_eq_true.mp ha with ⟨q, hq, hqu⟩
          refine List.any_eq_true.mpr ⟨q, List.mem_filter.mpr ⟨hq, ?_⟩, hqu⟩
          simp only [decide_eq_true_eq] at hqu ⊢
          rw [hqu]
          exact hut
        rw [addToIndex_eq_map i hany2, List.filter_map]
        congr 1
        apply List.filter_congr
        intro q hq
        simp only [Function.comp_apply]
        congr 1
        rw [addToIndex_fun_fst]
      · rw [removeFromIndex_eq_map hft2 hl, removeFromIndex_eq_map hft hl]
        have hany2 : (m.map (fun q => if q.1 = t then (q.1, p.2.erase i) else q)).any
            (fun q => decide (q.1 = u)) = true := by
          rw [any_key_map_of_fst_preserved (remove_fun_fst t _)]
          exact ha
        rw [addToIndex_eq_map i hany2, List.map_map, List.map_map]
        apply List.map_congr_left
        intro q hq
        simp only [Function.comp_apply]
        by_cases hqt : q.1 = t
        · have hqu : ¬ q.1 = u := by rw [hqt]; exact htu
          simp [hqt, hqu, htu]
        · by_cases hqu : q.1 = u
          · simp [hqt, hqu, htu, hut]
          · simp [hqt, hqu, htu, hut]
  · have ha2 : m.any (fun p => decide (p.1 = u)) = false := by
      rwa [Bool.not_eq_true] at ha
    rw [addToIndex_eq_append i ha2]
    rcases hft : m.find? (fun q => decide (q.1 = t)) with _ | p
    · have hftex : (m ++ [(u, [i])]).find? (fun q => decide (q.1 = t)) = none := by
        rw [List.find?_append, hft]
        simp [htu, hut]
      rw [removeFromIndex_eq_id i hftex, removeFromIndex_eq_id i hft,
        addToIndex_eq_append i ha2]
    · have hftex : (m ++ [(u, [i])]).find? (fun q => decide (q.1 = t)) = some p := by
        rw [List.find?_append, hft]
        rfl
      by_cases hl : p.2.erase i = []
      · rw [removeFromIndex_eq_filter hftex hl, removeFromIndex_eq_filter hft hl]
        have hany2 : (m.filter (fun q => decide (q.1 ≠ t))).any
            (fun q => decide (q.1 = u)) = false := by
          rw [List.any_eq_false]
          intro q hq
          exact List.any_eq_false.mp ha2 q (List.mem_of_mem_filter hq)
        rw [addToIndex_eq_append i hany2, List.filter_append]
        congr 1
        rw [List.filter_cons_of_pos (by simp [hut])]
        rfl
      · rw [removeFromIndex_eq_map hftex hl, removeFromIndex_eq_map hft hl]
        have hany2 : (m.map (fun q => if q.1 = t then (q.1, p.2.erase i) else q)).any
            (fun q => decide (q.1 = u)) = false := by
          rw [any_key_map_of_fst_preserved (remove_fun_fst t _)]
          exact ha2
        rw [addToIndex_eq_append i hany2, List.map_append]
        congr 1
        simp [hut]

lemma remove_addSeq_comm {t : κ} {i : String} : ∀ (ks : List κ) (m : IdxMap κ),
    (∀ u ∈ ks, u ≠ t) →
    removeFromIndex (addSeq m ks i) t i = addSeq (removeFromIndex m t i) ks i
  | [], _, _ => rfl
  | u :: ks, m, h => by
      show removeFromIndex (addSeq (addToIndex m u i) ks i) t i =
        addSeq (addToIndex (removeFromIndex m t i) u i) ks i
      rw [remove_addSeq_comm ks (addToIndex m u i)
          (fun v hv => h v (List.mem_cons_of_mem u hv)),
        remove_add_comm (h u (List.mem_cons_self u ks)) i]

lemma lookup_addSeq_not_mem {t : κ} {i : String} : ∀ (ks : List κ) (m : IdxMap κ),
    t ∉ ks → lookupSet (addSeq m ks i) t = lookupSet m t
  | [], _, _ => rfl
  | u :: ks, m, h => by
      show lookupSet (addSeq (addToIndex m u i) ks i) t = _
      rw [lookup_addSeq_not_mem ks _ (fun hm => h (List.mem_cons_of_mem u hm)),
        lookup_addToIndex_ne (fun he => h (by rw [← he]; exact List.mem_cons_self u ks)) i]

lemma freeAt_of_idFree {m : IdxMap κ} {i : String} (h : idFree m i) (t : κ) :
    freeAt m t i := by
  intro l hl
  unfold lookupSet at hl
  rcases hf : m.find? (fun p => decide (p.1 = t)) with _ | p
  · rw [hf] at hl
    cases hl
  · rw [hf] at hl
    have hp := find?_key_some hf
    have hpl : p.2 = l := by simpa using hl
    exact hpl ▸ h p hp.1

/-- Duplicate keys in an add sequence are no-ops once the id is in the key's
set; the sequence behaves like its first-occurrence subsequence. -/
lemma addSeq_skip {m : IdxMap κ} (hwf : IdxWF m) {t : κ} {i : String}
    (hmem : memSet m t i) (ks : List κ) :
    addSeq m ks i = addSeq m (ks.filter (fun u => decide (u ≠ t))) i := by
  induction ks generalizing m with
  | nil => rfl
  | cons u ks ih =>
      by_cases hut : u = t
      · subst hut
        rw [show addSeq m (u :: ks) i = addSeq (addToIndex m u i) ks i from rfl,
          addToIndex_noop hwf.1 hmem, List.filter_cons_of_neg (by simp)]
        exact ih hwf hmem
      · rw [List.filter_cons_of_pos (by simpa using hut)]
        show addSeq (addToIndex m u i) ks i =
          addSeq (addToIndex m u i) (ks.filter (fun v => decide (v ≠ t))) i
        exact ih (addToIndex_wf hwf u i) (memSet_addToIndex_mono hmem u)

/-- Removals of a key whose set does not hold the id are no-ops; the sequence
behaves like its filtered subsequence. -/
lemma removeSeq_skip {m : IdxMap κ} (hwf : IdxWF m) {t : κ} {i : String}
    (hfree : freeAt m t i) (ks : List κ) :
    removeSeq m ks i = removeSeq m (ks.filter (fun u => decide (u ≠ t))) i := by
  induction ks generalizing m with
  | nil => rfl
  | cons u ks ih =>
      by_cases hut : u = t
      · subst hut
        rw [show removeSeq m (u :: ks) i = removeSeq (removeFromIndex m u i) ks i from rfl,
          removeFromIndex_noop hwf hfree, List.filter_cons_of_neg (by simp)]
        exact ih hwf hfree
      · rw [List.filter_cons_of_pos (by simpa using hut)]
        show removeSeq (removeFromIndex m u i) ks i =
          removeSeq (removeFromIndex m u i) (ks.filter (fun v => decide (v ≠ t))) i
        refine ih (removeFromIndex_wf hwf u i) ?_
        intro l hl
        rw [lookup_removeFromIndex_ne hut i] at hl
        exact hfree l hl

/-- Running the remove loop over the same key sequence as the add loop
restores a well-formed map that did not hold the id. -/
lemma removeSeq_addSeq_cancel {m : IdxMap κ} (hwf : IdxWF m) {i : String}
    (hfree : idFree m i) : ∀ (n : ℕ) (ks : List κ), ks.length ≤ n →
    removeSeq (addSeq m ks i) ks i = m := by
  intro n
  induction n with
  | zero =>
      intro ks hks
      rw [List.eq_nil_of_length_eq_zero (Nat.le_zero.mp hks)]
      rfl
  | succ n ih =>
      intro ks hks
      cases ks with
      | nil => rfl
      | cons t r =>
          have hlenr : (r.filter (fun u => decide (u ≠ t))).length ≤ n := by
            have h1 := List.length_filter_le (fun u => decide (u ≠ t)) r
            simp only [List.length_cons] at hks
            omega
          have hmem : memSet (addToIndex m t i) t i := memSet_addToIndex_self m t i
          have hwft : IdxWF (addToIndex m t i) := addToIndex_wf hwf t i
          show removeSeq (removeFromIndex (addSeq (addToIndex m t i) r i) t i) r i = m
          rw [addSeq_skip hwft hmem r,
            remove_addSeq_comm (r.filter (fun u => decide (u ≠ t))) (addToIndex m t i)
              (fun u hu => by simpa using List.of_mem_filter hu),
            remove_add_cancel hwf hfree t]
          have hfree2 : freeAt (addSeq m (r.filter (fun u => decide (u ≠ t))) i) t i := by
            intro l hl
            rw [lookup_addSeq_not_mem (r.filter (fun u => decide (u ≠ t))) m
              (fun hm => by simpa using List.of_mem_filter hm)] at hl
            exact freeAt_of_idFree hfree t l hl
          rw [removeSeq_skip (addSeq_wf hwf _ i) hfree2 r]
          exact ih (r.filter (fun u => decide (u ≠ t))) hlenr

/-- Single-key form of the cancellation. -/
lemma remove_add_cancel_one {m : IdxMap κ} (hwf : IdxWF m) {i : String}
    (hfree : idFree m i) (k : κ) :
    removeFromIndex (addToIndex m k i) k i = m := remove_add_cancel hwf hfree k

end IndexMap

/-! ## RecordIndex: tokenization and the six-dimension index -/

/-- Character normalization of MemoryIndex.tokenize: ASCII word characters and
CJK characters survive, everything else becomes a separator (the JS regex
replaces every character outside \\w, whitespace and U+4E00-U+9FFF by a
space; whitespace itself then acts as a separator in the split). -/
def keepChar (c : Char) : Char :=
  if c.isAlphanum ∨ c = '_' ∨ (0x4e00 ≤ c.toNat ∧ c.toNat ≤ 0x9fff) then c else ' '

/-- Splitting a normalized character list on spaces; empty segments are later
removed by the length filter, which makes this equivalent to split(/\\s+/). -/
def splitSpaces : List Char → List Char → List (List Char)
  | [], acc => [acc.reverse]
  | c :: cs, acc =>
      if c = ' ' then acc.reverse :: splitSpaces cs [] else splitSpaces cs (c :: acc)

/-- MemoryIndex.tokenize (lines 217-223): lower-case (modelled on the ASCII
range by Char.toLower), normalize separators, split on whitespace and drop
tokens of length ≤ 1. -/
def tokenize (s : String) : List String :=
  ((splitSpaces ((s.data.map Char.toLower).map keepChar) []).map
    (fun l => String.mk l)).filter (fun w => decide (1 < w.length))

/-- tag.toLowerCase(), modelled on the ASCII range. -/
def lowerStr (s : String) : String := String.mk (s.data.map Char.toLower)

/-- The metadata index key: key + ":" + String(value). -/
def metaKey (p : String × String) : String := p.1 ++ ":" ++ p.2

/-- The date index key, new Date(createdAt).toISOString().split('T')[0]: for
the normalized ISO-8601 UTC timestamps the engine itself writes this is the
prefix before 'T'. -/
def dateKey (s : String) : String := String.mk (s.data.takeWhile (fun c => c ≠ 'T'))

/-- The conversation-id keys indexed for a record: the single truthy
conversationId, if any (the JS guard `if (memory.conversationId)` skips both
undefined and the empty string). -/
def convKeys (mem : MemoryEntry) : List String :=
  match mem.conversationId with
  | some c => if c = "" then [] else [c]
  | none => []

/-- The six inverted-index dimensions of MemoryIndex. -/
structure MemoryIndex where
  contentIndex : IdxMap String
  tagIndex : IdxMap String
  typeIndex : IdxMap MemoryType
  conversationIndex : IdxMap String
  metadataIndex : IdxMap String
  dateIndex : IdxMap String
  deriving DecidableEq

def emptyIndex : MemoryIndex := ⟨[], [], [], [], [], []⟩

/-- MemoryIndex.addMemory (src/utils/MemoryIndex.ts lines 28-60): index the
content tokens, lower-cased tags, type, truthy conversation id, metadata
key:value pairs and creation date. -/
def addMemory (idx : MemoryIndex) (mem : MemoryEntry) : MemoryIndex where
  contentIndex := addSeq idx.contentIndex (tokenize mem.content) mem.id
  tagIndex := addSeq idx.tagIndex (mem.tags.map lowerStr) mem.id
  typeIndex := addToIndex idx.typeIndex mem.type mem.id
  conversationIndex := addSeq idx.conversationIndex (convKeys mem) mem.id
  metadataIndex := addSeq idx.metadataIndex (mem.metadata.map metaKey) mem.id
  dateIndex := addToIndex idx.dateIndex (dateKey mem.createdAt) mem.id

/-- MemoryIndex.removeMemory (src/utils/MemoryIndex.ts lines 65-97): the
mirror of addMemory through removeFromIndex. -/
def removeMemory (idx : MemoryIndex) (mem : MemoryEntry) : MemoryIndex where
  contentIndex := removeSeq idx.contentIndex (tokenize mem.content) mem.id
  tagIndex := removeSeq idx.tagIndex (mem.tags.map lowerStr) mem.id
  typeIndex := removeFromIndex idx.typeIndex mem.type mem.id
  conversationIndex := removeSeq idx.conversationIndex (convKeys mem) mem.id
  metadataIndex := removeSeq idx.metadataIndex (mem.metadata.map metaKey) mem.id
  dateIndex := removeFromIndex idx.dateIndex (dateKey mem.createdAt) mem.id

/-- The maintained invariant over all six dimensions. -/
def IndexWF (idx : MemoryIndex) : Prop :=
  IdxWF idx.contentIndex ∧ IdxWF idx.tagIndex ∧ IdxWF idx.typeIndex ∧
  IdxWF idx.conversationIndex ∧ IdxWF idx.metadataIndex ∧ IdxWF idx.dateIndex

/-- The record id occurs in no id set of any dimension. -/
def IndexIdFree (idx : MemoryIndex) (i : String) : Prop :=
  idFree idx.contentIndex i ∧ idFree idx.tagIndex i ∧ idFree idx.typeIndex i ∧
  idFree idx.conversationIndex i ∧ idFree idx.metadataIndex i ∧ idFree idx.dateIndex i

/-- C6 (amended): addMemory then removeMemory restores all six index maps
exactly — including deletion of keys whose sets become empty — for every
index state satisfying the code's maintained invariants (pairwise-distinct
keys, no empty sets) in which the record's id is not yet indexed. -/
theorem index_add_remove_restores (idx : MemoryIndex) (mem : MemoryEntry)
    (hwf : IndexWF idx) (hfree : IndexIdFree idx mem.id) :
    removeMemory (addMemory idx mem) mem = idx := by
  rcases hwf with ⟨w1, w2, w3, w4, w5, w6⟩
  rcases hfree with ⟨f1, f2, f3, f4, f5, f6⟩
  cases idx with
  | mk c t ty cv md dt =>
      unfold addMemory removeMemory
      simp only [MemoryIndex.mk.injEq]
      exact ⟨removeSeq_addSeq_cancel w1 f1 _ _ le_rfl,
        removeSeq_addSeq_cancel w2 f2 _ _ le_rfl,
        remove_add_cancel w3 f3 mem.type,
        removeSeq_addSeq_cancel w4 f4 _ _ le_rfl,
        removeSeq_addSeq_cancel w5 f5 _ _ le_rfl,
        remove_add_cancel w6 f6 (dateKey mem.createdAt)⟩

/-- A concrete record exercising every index dimension. -/
def sampleRecord : MemoryEntry :=
  ⟨"m1", "hello world", .global, some "conv1",
    "2025-01-01T00:00:00.000Z", "2025-01-01T00:00:00.000Z", ["Tag"],
    [("k", "v")], none⟩

/-- C6 counterexample: the claim quantifies over every index state, but when
the record's id is already indexed (here: the state reached by adding the
record once), add-then-remove erases the id and deletes its keys instead of
restoring the state. -/
theorem index_add_remove_counterexample :
    removeMemory (addMemory (addMemory emptyIndex sampleRecord) sampleRecord)
      sampleRecord ≠ addMemory emptyIndex sampleRecord := by
  decide

/-- Witness for C6 (amended): the empty index is well-formed and id-free, and
add-then-remove of the sample record restores it. -/
theorem index_add_remove_restores_witness :
    removeMemory (addMemory emptyIndex sampleRecord) sampleRecord = emptyIndex :=
  index_add_remove_restores emptyIndex sampleRecord
    (by refine ⟨⟨by decide, ?_⟩, ⟨by decide, ?_⟩, ⟨by decide, ?_⟩, ⟨by decide, ?_⟩,
          ⟨by decide, ?_⟩, ⟨by decide, ?_⟩⟩ <;> intro p hp <;> cases hp)
    (by refine ⟨?_, ?_, ?_, ?_, ?_, ?_⟩ <;> intro p hp <;> cases hp)

/-! ## RecordIndex.search (src/utils/MemoryIndex.ts lines 110-157) -/

/-- The optional criteria struct of MemoryIndex.search. -/
structure SearchOptions where
  searchText : Option String := none
  tags : Option (List String) := none
  type : Option MemoryType := none
  conversationId : Option String := none
  metadata : Option (List (String × String)) := none
  dateRange : Option (Option String × Option String) := none

/-- JS truthiness guard of the text criterion: an absent or empty string is
not supplied. -/
def textSupplied (o : SearchOptions) : Bool :=
  match o.searchText with
  | some s => decide (s ≠ "")
  | none => false

/-- Guard of the tag criterion: options.tags && options.tags.length > 0. -/
def tagsSupplied (o : SearchOptions) : Bool :=
  match o.tags with
  | some ts => decide (0 < ts.length)
  | none => false

/-- Guard of the type criterion (enum strings are always truthy). -/
def typeSupplied (o : SearchOptions) : Bool := o.type.isSome

/-- Guard of the conversation criterion (empty string is falsy). -/
def convSupplied (o : SearchOptions) : Bool :=
  match o.conversationId with
  | some c => decide (c ≠ "")
  | none => false

/-- Guard of the metadata criterion (an object is truthy even when empty). -/
def metaSupplied (o : SearchOptions) : Bool := o.metadata.isSome

/-- Guard of the date-range criterion (an object is truthy even when empty). -/
def dateSupplied (o : SearchOptions) : Bool := o.dateRange.isSome

/-- index.get(key) with a missing key treated as the empty set. -/
def getSet {κ : Type} [DecidableEq κ] (m : IdxMap κ) (k : κ) : List String :=
  (lookupSet m k).getD []

/-- MemoryIndex.intersectSets (lines 326-338): a null running set starts as a
copy of the new set; otherwise keep the members of the running set that the
new set also holds. -/
def intersectSets (acc : Option (List String)) (s : List String) : List String :=
  match acc with
  | none => s
  | some l => l.filter (fun y => decide (y ∈ s))

/-- Set union by insertion (the OR loops of searchTags and searchDateRange):
append the members not already present. -/
def unionSets (l s : List String) : List String :=
  l ++ s.filter (fun y => decide (y ∉ l))

lemma mem_intersectSets_some {x : String} {l s : List String} :
    x ∈ intersectSets (some l) s ↔ x ∈ l ∧ x ∈ s := by
  simp [intersectSets]

lemma mem_unionSets {x : String} {l s : List String} :
    x ∈ unionSets l s ↔ x ∈ l ∨ x ∈ s := by
  simp only [unionSets, List.mem_append, List.mem_filter, decide_eq_true_eq]
  by_cases hx : x ∈ l <;> simp [hx]

/-- One step of the AND-folds (content tokens / metadata pairs / the main
criteria loop): when the step applies, intersect its candidate set into the
running result. -/
def applyCriterion (acc : Option (List String)) (step : Bool × List String) :
    Option (List String) :=
  if step.1 then some (intersectSets acc step.2) else acc

lemma chain_some_mem (x : String) : ∀ (steps : List (Bool × List String)) (l : List String),
    x ∈ (steps.foldl applyCriterion (some l)).getD [] ↔
      x ∈ l ∧ ∀ st ∈ steps, st.1 = true → x ∈ st.2
  | [], l => by simp
  | ⟨b, cand⟩ :: steps, l => by
      rw [List.foldl_cons]
      by_cases hb : b = true
      · rw [show applyCriterion (some l) (b, cand) = some (intersectSets (some l) cand) from by
          simp [applyCriterion, hb]]
        rw [chain_some_mem x steps (intersectSets (some l) cand)]
        simp only [mem_intersectSets_some]
        constructor
        · rintro ⟨⟨hl, hc⟩, hrest⟩
          refine ⟨hl, ?_⟩
          intro st hmem
          rcases List.mem_cons.mp hmem with rfl | hst
          · exact fun _ => hc
          · exact hrest st hst
        · rintro ⟨hl, hall⟩
          exact ⟨⟨hl, hall (b, cand) (List.mem_cons_self _ _) hb⟩,
            fun st hst => hall st (List.mem_cons_of_mem _ hst)⟩
      · rw [show applyCriterion (some l) (b, cand) = some l from by simp [applyCriterion, hb]]
        rw [chain_some_mem x steps l]
        constructor
        · rintro ⟨hl, hrest⟩
          refine ⟨hl, ?_⟩
          intro st hmem
          rcases List.mem_cons.mp hmem with rfl | hst
          · exact fun hbt => absurd hbt hb
          · exact hrest st hst
        · rintro ⟨hl, hall⟩
          exact ⟨hl, fun st hst => hall st (List.mem_cons_of_mem _ hst)⟩

lemma chain_none_mem (x : String) : ∀ (steps : List (Bool × List String)),
    x ∈ (steps.foldl applyCriterion none).getD [] ↔
      (∃ st ∈ steps, st.1 = true) ∧ ∀ st ∈ steps, st.1 = true → x ∈ st.2
  | [] => by simp
  | ⟨b, cand⟩ :: steps => by
      rw [List.foldl_cons]
      by_cases hb : b = true
      · rw [show applyCriterion none (b, cand) = some cand from by
          simp [applyCriterion, hb, intersectSets]]
        rw [chain_some_mem x steps cand]
        constructor
        · rintro ⟨hc, hrest⟩
          refine ⟨⟨(b, cand), List.mem_cons_self _ _, hb⟩, ?_⟩
          intro st hmem
          rcases List.mem_cons.mp hmem with rfl | hst
          · exact fun _ => hc
          · exact hrest st hst
        · rintro ⟨_, hall⟩
          exact ⟨hall (b, cand) (List.mem_cons_self _ _) hb,
            fun st hst => hall st (List.mem_cons_of_mem _ hst)⟩
      · rw [show applyCriterion none (b, cand) = none from by simp [applyCriterion, hb]]
        rw [chain_none_mem x steps]
        constructor
        · rintro ⟨⟨st, hst, hb2⟩, hrest⟩
          refine ⟨⟨st, List.mem_cons_of_mem _ hst, hb2⟩, ?_⟩
          intro st2 hmem
          rcases List.mem_cons.mp hmem with rfl | hst2
          · exact fun hbt => absurd hbt hb
          · exact hrest st2 hst2
        · rintro ⟨⟨st, hst, hb2⟩, hall⟩
          rcases List.mem_cons.mp hst with rfl | hst2
          · exact absurd hb2 hb
          · exact ⟨⟨st, hst2, hb2⟩, fun st2 h2 => hall st2 (List.mem_cons_of_mem _ h2)⟩

/-- MemoryIndex.searchContent (lines 251-261): intersect the id sets of all
query tokens over a null-started running set (no tokens yields the empty
set). -/
def searchContent (m : IdxMap String) (text : String) : List String :=
  (((tokenize text).map (fun w => (true, getSet m w))).foldl applyCriterion none).getD []

/-- MemoryIndex.searchMetadata (lines 287-297): intersect the id sets of all
key:value pairs over a null-started running set. -/
def searchMetadata (m : IdxMap String) (md : List (String × String)) : List String :=
  ((md.map (fun p => (true, getSet m (metaKey p)))).foldl applyCriterion none).getD []

/-- One step of MemoryIndex.searchTags: union the tag's id set into the
running set (a null start copies it). -/
def tagsFoldStep (m : IdxMap String) (acc : Option (List String)) (tag : String) :
    Option (List String) :=
  match acc with
  | none => some (getSet m (lowerStr tag))
  | some l => some (unionSets l (getSet m (lowerStr tag)))

/-- MemoryIndex.searchTags (lines 266-282): OR over the given tags. -/
def searchTags (m : IdxMap String) (tags : List String) : List String :=
  (tags.foldl (tagsFoldStep m) none).getD []

/-- Lexicographic comparison of date keys; on the fixed-format ISO dates the
index stores this coincides with the JS Date comparison. -/
def dateLt (a b : String) : Bool := decide (a < b)

/-- The date-range admission test of searchDateRange: a truthy lower bound
excludes strictly earlier dates, a truthy upper bound excludes strictly later
dates. -/
def inDateRange (dr : Option String × Option String) (d : String) : Bool :=
  (match dr.1 with
   | some f => if f = "" then true else ! dateLt d f
   | none => true) &&
  (match dr.2 with
   | some t => if t = "" then true else ! dateLt t d
   | none => true)

/-- One step of MemoryIndex.searchDateRange: union the ids of an in-range
date key into the running set. -/
def dateFoldStep (dr : Option String × Option String) (acc : Option (List String))
    (p : String × List String) : Option (List String) :=
  if inDateRange dr p.1 then
    match acc with
    | none => some p.2
    | some l => some (unionSets l p.2)
  else acc

/-- MemoryIndex.searchDateRange (lines 302-321): OR over the in-range keys of
the date index, in index insertion order. -/
def searchDateRange (m : IdxMap String) (dr : Option String × Option String) :
    List String :=
  (m.foldl (dateFoldStep dr) none).getD []

lemma mem_searchContent {m : IdxMap String} {text : String} {x : String} :
    x ∈ searchContent m text ↔
      tokenize text ≠ [] ∧ ∀ w ∈ tokenize text, x ∈ getSet m w := by
  unfold searchContent
  rw [chain_none_mem]
  constructor
  · rintro ⟨⟨st, hst, _⟩, hall⟩
    rcases List.mem_map.mp hst with ⟨w, hw, rfl⟩
    refine ⟨fun hnil => (by rw [hnil] at hw; cases hw), ?_⟩
    intro w2 hw2
    exact hall (true, getSet m w2) (List.mem_map_of_mem _ hw2) rfl
  · rintro ⟨hne, hall⟩
    rcases List.exists_mem_of_ne_nil _ hne with ⟨w, hw⟩
    refine ⟨⟨(true, getSet m w), List.mem_map_of_mem _ hw, rfl⟩, ?_⟩
    intro st hst _
    rcases List.mem_map.mp hst with ⟨w2, hw2, rfl⟩
    exact hall w2 hw2

lemma mem_searchMetadata {m : IdxMap String} {md : List (String × String)} {x : String} :
    x ∈ searchMetadata m md ↔ md ≠ [] ∧ ∀ p ∈ md, x ∈ getSet m (metaKey p) := by
  unfold searchMetadata
  rw [chain_none_mem]
  constructor
  · rintro ⟨⟨st, hst, _⟩, hall⟩
    rcases List.mem_map.mp hst with ⟨p, hp, rfl⟩
    refine ⟨fun hnil => (by rw [hnil] at hp; cases hp), ?_⟩
    intro p2 hp2
    exact hall (true, getSet m (metaKey p2)) (List.mem_map_of_mem _ hp2) rfl
  · rintro ⟨hne, hall⟩
    rcases List.exists_mem_of_ne_nil _ hne with ⟨p, hp⟩
    refine ⟨⟨(true, getSet m (metaKey p)), List.mem_map_of_mem _ hp, rfl⟩, ?_⟩
    intro st hst _
    rcases List.mem_map.mp hst with ⟨p2, hp2, rfl⟩
    exact hall p2 hp2

lemma tags_fold_some (m : IdxMap String) (x : String) :
    ∀ (tags : List String) (l : List String),
    x ∈ ((tags.foldl (tagsFoldStep m) (some l)).getD []) ↔
      x ∈ l ∨ ∃ tag ∈ tags, x ∈ getSet m (lowerStr tag)
  | [], l => by simp
  | tag :: tags, l => by
      rw [List.foldl_cons,
        show tagsFoldStep m (some l) tag = some (unionSets l (getSet m (lowerStr tag)))
          from rfl,
        tags_fold_some m x tags (unionSets l (getSet m (lowerStr tag)))]
      simp only [mem_unionSets, List.mem_cons]
      constructor
      · rintro ((hl | hg) | ⟨tag2, h2, hx2⟩)
        · exact Or.inl hl
        · exact Or.inr ⟨tag, Or.inl rfl, hg⟩
        · exact Or.inr ⟨tag2, Or.inr h2, hx2⟩
      · rintro (hl | ⟨tag2, (rfl | h2), hx2⟩)
        · exact Or.inl (Or.inl hl)
        · exact Or.inl (Or.inr hx2)
        · exact Or.inr ⟨tag2, h2, hx2⟩

lemma mem_searchTags {m : IdxMap String} {tags : List String} {x : String} :
    x ∈ searchTags m tags ↔ ∃ tag ∈ tags, x ∈ getSet m (lowerStr tag) := by
  cases tags with
  | nil => simp [searchTags]
  | cons tag tags =>
      unfold searchTags
      rw [List.foldl_cons,
        show tagsFoldStep m none tag = some (getSet m (lowerStr tag)) from rfl,
        tags_fold_some m x tags (getSet m (lowerStr tag))]
      simp only [List.mem_cons]
      constructor
      · rintro (hg | ⟨tag2, h2, hx2⟩)
        · exact ⟨tag, Or.inl rfl, hg⟩
        · exact ⟨tag2, Or.inr h2, hx2⟩
      · rintro ⟨tag2, (rfl | h2), hx2⟩
        · exact Or.inl hx2
        · exact Or.inr ⟨tag2, h2, hx2⟩

lemma date_fold_some (dr : Option String × Option String) (x : String) :
    ∀ (es : List (String × List String)) (l : List String),
    x ∈ ((es.foldl (dateFoldStep dr) (some l)).getD []) ↔
      x ∈ l ∨ ∃ p ∈ es, inDateRange dr p.1 = true ∧ x ∈ p.2
  | [], l => by simp
  | p :: es, l => by
      rw [List.foldl_cons]
      by_cases hg : inDateRange dr p.1 = true
      · rw [show dateFoldStep dr (some l) p = some (unionSets l p.2) from by
          simp [dateFoldStep, hg], date_fold_some dr x es (unionSets l p.2)]
        simp only [mem_unionSets, List.mem_cons]
        constructor
        · rintro ((hl | hp) | ⟨q, hq, hgq, hxq⟩)
          · exact Or.inl hl
          · exact Or.inr ⟨p, Or.inl rfl, hg, hp⟩
          · exact Or.inr ⟨q, Or.inr hq, hgq, hxq⟩
        · rintro (hl | ⟨q, (rfl | hq), hgq, hxq⟩)
          · exact Or.inl (Or.inl hl)
          · exact Or.inl (Or.inr hxq)
          · exact Or.inr ⟨q, hq, hgq, hxq⟩
      · rw [show dateFoldStep dr (some l) p = some l from by simp [dateFoldStep, hg],
          date_fold_some dr x es l]
        simp only [List.mem_cons]
        constructor
        · rintro (hl | ⟨q, hq, hgq, hxq⟩)
          · exact Or.inl hl
          · exact Or.inr ⟨q, Or.inr hq, hgq, hxq⟩
        · rintro (hl | ⟨q, (rfl | hq), hgq, hxq⟩)
          · exact Or.inl hl
          · exact absurd hgq hg
          · exact Or.inr ⟨q, hq, hgq, hxq⟩

lemma mem_searchDateRange {m : IdxMap String} {dr : Option String × Option String}
    {x : String} :
    x ∈ searchDateRange m dr ↔ ∃ p ∈ m, inDateRange dr p.1 = true ∧ x ∈ p.2 := by
  unfold searchDateRange
  induction m with
  | nil => simp
  | cons p es ih =>
      rw [List.foldl_cons]
      by_cases hg : inDateRange dr p.1 = true
      · rw [show dateFoldStep dr none p = some p.2 from by simp [dateFoldStep, hg],
          date_fold_some dr x es p.2]
        simp only [List.mem_cons]
        constructor
        · rintro (hp | ⟨q, hq, hgq, hxq⟩)
          · exact ⟨p, Or.inl rfl, hg, hp⟩
          · exact ⟨q, Or.inr hq, hgq, hxq⟩
        · rintro ⟨q, (rfl | hq), hgq, hxq⟩
          · exact Or.inl hxq
          · exact Or.inr ⟨q, hq, hgq, hxq⟩
      · rw [show dateFoldStep dr none p = none from by simp [dateFoldStep, hg], ih]
        simp only [List.mem_cons]
        constructor
        · rintro ⟨q, hq, hgq, hxq⟩
          exact ⟨q, Or.inr hq, hgq, hxq⟩
        · rintro ⟨q, (rfl | hq), hgq, hxq⟩
          · exact absurd hgq hg
          · exact ⟨q, hq, hgq, hxq⟩

/-- The six criteria of MemoryIndex.search in source order, each paired with
its suppliedness guard. -/
def criteria (idx : MemoryIndex) (o : SearchOptions) : List (Bool × List String) :=
  [(textSupplied o, searchContent idx.contentIndex (o.searchText.getD "")),
   (tagsSupplied o, searchTags idx.tagIndex (o.tags.getD [])),
   (typeSupplied o,
     match o.type with
     | some ty => getSet idx.typeIndex ty
     | none => []),
   (convSupplied o, getSet idx.conversationIndex (o.conversationId.getD "")),
   (metaSupplied o, searchMetadata idx.metadataIndex (o.metadata.getD [])),
   (dateSupplied o, searchDateRange idx.dateIndex (o.dateRange.getD (none, none)))]

/-- MemoryIndex.search (lines 110-157): the six guarded intersection steps
over a null-started running set; a still-null result yields the empty set. -/
def search (idx : MemoryIndex) (o : SearchOptions) : List String :=
  ((criteria idx o).foldl applyCriterion none).getD []

lemma search_mem_guarded (idx : MemoryIndex) (o : SearchOptions) (x : String) :
    x ∈ search idx o ↔
      ((textSupplied o = true ∨ tagsSupplied o = true ∨ typeSupplied o = true ∨
        convSupplied o = true ∨ metaSupplied o = true ∨ dateSupplied o = true) ∧
       (textSupplied o = true → x ∈ searchContent idx.contentIndex (o.searchText.getD "")) ∧
       (tagsSupplied o = true → x ∈ searchTags idx.tagIndex (o.tags.getD [])) ∧
       (typeSupplied o = true →
         x ∈ (match o.type with | some ty => getSet idx.typeIndex ty | none => [])) ∧
       (convSupplied o = true → x ∈ getSet idx.conversationIndex (o.conversationId.getD "")) ∧
       (metaSupplied o = true → x ∈ searchMetadata idx.metadataIndex (o.metadata.getD [])) ∧
       (dateSupplied o = true →
         x ∈ searchDateRange idx.dateIndex (o.dateRange.getD (none, none)))) := by
  rw [show search idx o = ((criteria idx o).foldl applyCriterion none).getD [] from rfl,
    chain_none_mem]
  have m1 : (textSupplied o, searchContent idx.contentIndex (o.searchText.getD ""))
      ∈ criteria idx o := by simp [criteria]
  have m2 : (tagsSupplied o, searchTags idx.tagIndex (o.tags.getD [])) ∈ criteria idx o := by
    simp [criteria]
  have m3 : ((typeSupplied o,
      match o.type with | some ty => getSet idx.typeIndex ty | none => []) :
        Bool × List String) ∈ criteria idx o := by simp [criteria]
  have m4 : (convSupplied o, getSet idx.conversationIndex (o.conversationId.getD ""))
      ∈ criteria idx o := by simp [criteria]
  have m5 : (metaSupplied o, searchMetadata idx.metadataIndex (o.metadata.getD []))
      ∈ criteria idx o := by simp [criteria]
  have m6 : (dateSupplied o, searchDateRange idx.dateIndex (o.dateRange.getD (none, none)))
      ∈ criteria idx o := by simp [criteria]
  constructor
  · rintro ⟨⟨st, hst, hb⟩, hall⟩
    refine ⟨?_, hall _ m1, hall _ m2, hall _ m3, hall _ m4, hall _ m5, hall _ m6⟩
    simp only [criteria, List.mem_cons, List.not_mem_nil, or_false] at hst
    rcases hst with rfl | rfl | rfl | rfl | rfl | rfl
    · exact Or.inl hb
    · exact Or.inr (Or.inl hb)
    · exact Or.inr (Or.inr (Or.inl hb))
    · exact Or.inr (Or.inr (Or.inr (Or.inl hb)))
    · exact Or.inr (Or.inr (Or.inr (Or.inr (Or.inl hb))))
    · exact Or.inr (Or.inr (Or.inr (Or.inr (Or.inr hb))))
  · rintro ⟨hsup, h1, h2, h3, h4, h5, h6⟩
    constructor
    · rcases hsup with h | h | h | h | h | h
      · exact ⟨_, m1, h⟩
      · exact ⟨_, m2, h⟩
      · exact ⟨_, m3, h⟩
      · exact ⟨_, m4, h⟩
      · exact ⟨_, m5, h⟩
      · exact ⟨_, m6, h⟩
    · intro st hst
      simp only [criteria, List.mem_cons, List.not_mem_nil, or_false] at hst
      rcases hst with rfl | rfl | rfl | rfl | rfl | rfl
      · exact h1
      · exact h2
      · exact h3
      · exact h4
      · exact h5
      · exact h6

lemma bridge_text (m : IdxMap String) (o : SearchOptions) (x : String) :
    (textSupplied o = true → x ∈ searchContent m (o.searchText.getD "")) ↔
      (∀ s, o.searchText = some s → s ≠ "" →
        (tokenize s ≠ [] ∧ ∀ w ∈ tokenize s, x ∈ getSet m w)) := by
  rcases ho : o.searchText with _ | s
  · simp [textSupplied, ho]
  · by_cases hs : s = ""
    · subst hs
      simp [textSupplied, ho]
    · simp [textSupplied, ho, hs, mem_searchContent]

lemma bridge_tags (m : IdxMap String) (o : SearchOptions) (x : String) :
    (tagsSupplied o = true → x ∈ searchTags m (o.tags.getD [])) ↔
      (∀ ts, o.tags = some ts → 0 < ts.length →
        ∃ tag ∈ ts, x ∈ getSet m (lowerStr tag)) := by
  rcases ho : o.tags with _ | ts
  · simp [tagsSupplied, ho]
  · by_cases hl : 0 < ts.length
    · simp [tagsSupplied, ho, hl, mem_searchTags]
    · simp [tagsSupplied, ho, hl]

lemma bridge_type (m : IdxMap MemoryType) (o : SearchOptions) (x : String) :
    (typeSupplied o = true →
      x ∈ (match o.type with | some ty => getSet m ty | none => ([] : List String))) ↔
      (∀ ty, o.type = some ty → x ∈ getSet m ty) := by
  rcases ho : o.type with _ | ty <;> simp [typeSupplied, ho]

lemma bridge_conv (m : IdxMap String) (o : SearchOptions) (x : String) :
    (convSupplied o = true → x ∈ getSet m (o.conversationId.getD "")) ↔
      (∀ c, o.conversationId = some c → c ≠ "" → x ∈ getSet m c) := by
  rcases ho : o.conversationId with _ | c
  · simp [convSupplied, ho]
  · by_cases hc : c = ""
    · subst hc
      simp [convSupplied, ho]
    · simp [convSupplied, ho, hc]

lemma bridge_meta (m : IdxMap String) (o : SearchOptions) (x : String) :
    (metaSupplied o = true → x ∈ searchMetadata m (o.metadata.getD [])) ↔
      (∀ md, o.metadata = some md →
        (md ≠ [] ∧ ∀ p ∈ md, x ∈ getSet m (metaKey p))) := by
  rcases ho : o.metadata with _ | md <;> simp [metaSupplied, ho, mem_searchMetadata]

lemma bridge_date (m : IdxMap String) (o : SearchOptions) (x : String) :
    (dateSupplied o = true → x ∈ searchDateRange m (o.dateRange.getD (none, none))) ↔
      (∀ dr, o.dateRange = some dr →
        ∃ p ∈ m, inDateRange dr p.1 = true ∧ x ∈ p.2) := by
  rcases ho : o.dateRange with _ | dr <;> simp [dateSupplied, ho, mem_searchDateRange]

/-- C7: search returns the empty set when no criterion is supplied; otherwise
an id is returned iff it satisfies every supplied criterion, where the text
criterion is the intersection (AND) over all tokens of the query, the tag
criterion is the union (OR) over the supplied tags, and type, conversation
id, metadata pairs and date range are each intersected (AND) into the running
result. -/
theorem search_spec (idx : MemoryIndex) (o : SearchOptions) (x : String) :
    (textSupplied o = false → tagsSupplied o = false → typeSupplied o = false →
      convSupplied o = false → metaSupplied o = false → dateSupplied o = false →
      search idx o = []) ∧
    (x ∈ search idx o ↔
      ((textSupplied o = true ∨ tagsSupplied o = true ∨ typeSupplied o = true ∨
        convSupplied o = true ∨ metaSupplied o = true ∨ dateSupplied o = true) ∧
       (∀ s, o.searchText = some s → s ≠ "" →
         (tokenize s ≠ [] ∧ ∀ w ∈ tokenize s, x ∈ getSet idx.contentIndex w)) ∧
       (∀ ts, o.tags = some ts → 0 < ts.length →
         ∃ tag ∈ ts, x ∈ getSet idx.tagIndex (lowerStr tag)) ∧
       (∀ ty, o.type = some ty → x ∈ getSet idx.typeIndex ty) ∧
       (∀ c, o.conversationId = some c → c ≠ "" → x ∈ getSet idx.conversationIndex c) ∧
       (∀ md, o.metadata = some md →
         (md ≠ [] ∧ ∀ p ∈ md, x ∈ getSet idx.metadataIndex (metaKey p))) ∧
       (∀ dr, o.dateRange = some dr →
         ∃ p ∈ idx.dateIndex, inDateRange dr p.1 = true ∧ x ∈ p.2))) := by
  constructor
  · intro h1 h2 h3 h4 h5 h6
    simp [search, criteria, applyCriterion, h1, h2, h3, h4, h5, h6]
  · rw [search_mem_guarded]
    exact and_congr Iff.rfl (and_congr (bridge_text idx.contentIndex o x)
      (and_congr (bridge_tags idx.tagIndex o x)
        (and_congr (bridge_type idx.typeIndex o x)
          (and_congr (bridge_conv idx.conversationIndex o x)
            (and_congr (bridge_meta idx.metadataIndex o x)
              (bridge_date idx.dateIndex o x))))))

/-- Witness for C7: the all-absent criteria struct yields the empty result on
a non-empty index. -/
theorem search_spec_witness :
    search (addMemory emptyIndex sampleRecord)
      ⟨none, none, none, none, none, none⟩ = [] :=
  (search_spec (addMemory emptyIndex sampleRecord)
    ⟨none, none, none, none, none, none⟩ "m1").1 rfl rfl rfl rfl rfl rfl

/-! ## Hybrid search (src/memory/MemoryManager.ts lines 703-758, 916-955) -/

/-- A JS Map with arbitrary values, as an insertion-ordered association
list. -/
abbrev AList (α : Type) := List (String × α)

section AListOps

variable {α : Type}

/-- Map.get. -/
def alGet (m : AList α) (k : String) : Option α :=
  (m.find? (fun p => decide (p.1 = k))).map Prod.snd

/-- Map.set: update in place when the key is present, append otherwise. -/
def alSet (m : AList α) (k : String) (v : α) : AList α :=
  if m.any (fun p => decide (p.1 = k)) then
    m.map (fun p => if p.1 = k then (k, v) else p)
  else m ++ [(k, v)]

lemma alSet_fun_fst (k : String) (v : α) (p : String × α) :
    ((if p.1 = k then (k, v) else p) : String × α).1 = p.1 := by
  split
  · next h => exact h.symm
  · rfl

lemma al_comp_pred {f : String × α → String × α} (hf : ∀ p, (f p).1 = p.1)
    (k : String) :
    ((fun p : String × α => decide (p.1 = k)) ∘ f) =
      fun p : String × α => decide (p.1 = k) := by
  funext p
  simp only [Function.comp_apply]
  rw [hf p]

lemma al_find?_map {f : String × α → String × α} (hf : ∀ p, (f p).1 = p.1)
    (m : AList α) (k : String) :
    (m.map f).find? (fun p => decide (p.1 = k)) =
      (m.find? (fun p => decide (p.1 = k))).map f := by
  rw [List.find?_map, al_comp_pred hf]

lemma al_any_find?_some {m : AList α} {pred : String × α → Bool}
    (h : m.any pred = true) : ∃ p, m.find? pred = some p := by
  rcases hf : m.find? pred with _ | p
  · rw [List.find?_eq_none] at hf
    rcases List.any_eq_true.mp h with ⟨q, hq, hpq⟩
    exact absurd hpq (by simpa using hf q hq)
  · exact ⟨p, rfl⟩

lemma al_find?_none {m : AList α} {k : String}
    (h : m.any (fun p => decide (p.1 = k)) = false) :
    m.find? (fun p => decide (p.1 = k)) = none := by
  rw [List.find?_eq_none]
  intro p hp
  rw [List.any_eq_false] at h
  exact h p hp

lemma al_find?_some {m : AList α} {k : String} {p : String × α}
    (h : m.find? (fun q => decide (q.1 = k)) = some p) : p ∈ m ∧ p.1 = k := by
  refine ⟨List.mem_of_find?_eq_some h, by simpa using List.find?_some h⟩

lemma al_find?_of_mem {m : AList α} {p : String × α}
    (hnd : (m.map Prod.fst).Nodup) (hp : p ∈ m) :
    m.find? (fun q => decide (q.1 = p.1)) = some p := by
  induction m with
  | nil => cases hp
  | cons q m ih =>
      simp only [List.map_cons, List.nodup_cons] at hnd
      rcases List.mem_cons.mp hp with rfl | hp2
      · exact List.find?_cons_of_pos _ (by simp)
      · have hne : q.1 ≠ p.1 := by
          intro he
          exact hnd.1 (he ▸ List.mem_map_of_mem Prod.fst hp2)
        rw [List.find?_cons_of_neg _ (by simpa using hne)]
        exact ih hnd.2 hp2

lemma alGet_set_self (m : AList α) (k : String) (v : α) :
    alGet (alSet m k v) k = some v := by
  by_cases ha : m.any (fun p => decide (p.1 = k)) = true
  · unfold alSet alGet
    rw [if_pos ha, al_find?_map (alSet_fun_fst k v)]
    rcases al_any_find?_some ha with ⟨p, hp⟩
    rw [hp]
    have hpk := al_find?_some hp
    simp only [Option.map_some']
    rw [if_pos hpk.2]
  · have ha2 : m.any (fun p => decide (p.1 = k)) = false := by
      rwa [Bool.not_eq_true] at ha
    unfold alSet alGet
    rw [if_neg (by simp [ha2]), List.find?_append, al_find?_none ha2]
    simp

lemma alGet_set_ne (m : AList α) {k k2 : String} (h : k ≠ k2) (v : α) :
    alGet (alSet m k v) k2 = alGet m k2 := by
  by_cases ha : m.any (fun p => decide (p.1 = k)) = true
  · unfold alSet alGet
    rw [if_pos ha, al_find?_map (alSet_fun_fst k v)]
    rcases hf : m.find? (fun p => decide (p.1 = k2)) with _ | p
    · rw [hf]
      rfl
    · rw [hf]
      have hp := al_find?_some hf
      simp only [Option.map_some']
      rw [if_neg (by rw [hp.2]; exact fun he => h he.symm)]
  · unfold alSet alGet
    rw [if_neg ha, List.find?_append]
    have h2 : List.find? (fun p => decide (p.1 = k2)) [(k, v)] = none := by
      simp [h]
    rw [h2, Option.or_none]

lemma alSet_keys (m : AList α) (k : String) (v : α) :
    (alSet m k v).map Prod.fst =
      if k ∈ m.map Prod.fst then m.map Prod.fst else m.map Prod.fst ++ [k] := by
  by_cases ha : m.any (fun p => decide (p.1 = k)) = true
  · have hk : k ∈ m.map Prod.fst := by
      rcases List.any_eq_true.mp ha with ⟨p, hp, hpk⟩
      simp only [decide_eq_true_eq] at hpk
      exact hpk ▸ List.mem_map_of_mem Prod.fst hp
    unfold alSet
    rw [if_pos ha, if_pos hk, List.map_map]
    exact List.map_congr_left (fun p _ => alSet_fun_fst k v p)
  · have hk : k ∉ m.map Prod.fst := by
      intro hin
      rcases List.mem_map.mp hin with ⟨p, hp, hpk⟩
      have h2 := List.any_eq_false.mp (by rwa [Bool.not_eq_true] at ha) p hp
      simp only [decide_eq_true_eq] at h2
      exact h2 hpk
    unfold alSet
    rw [if_neg ha, if_neg hk]
    simp

lemma alSet_keys_nodup {m : AList α} (hnd : (m.map Prod.fst).Nodup)
    (k : String) (v : α) : ((alSet m k v).map Prod.fst).Nodup := by
  rw [alSet_keys]
  split
  · exact hnd
  · rw [List.nodup_append]
    refine ⟨hnd, List.nodup_singleton k, ?_⟩
    intro a ha hb
    rw [List.mem_singleton] at hb
    subst hb
    exact absurd ha (by assumption)

end AListOps

/-- The values of the combination map carry their own key as id. -/
def idInv (m : AList VectorSearchResult) : Prop := ∀ p ∈ m, p.2.id = p.1

lemma idInv_alSet {m : AList VectorSearchResult} (hinv : idInv m)
    {k : String} {v : VectorSearchResult} (hv : v.id = k) : idInv (alSet m k v) := by
  intro p hp
  unfold alSet at hp
  split at hp
  · rcases List.mem_map.mp hp with ⟨q, hq, hfq⟩
    subst hfq
    split
    · exact hv
    · exact hinv q hq
  · rcases List.mem_append.mp hp with hp | hp
    · exact hinv p hp
    · rw [List.mem_singleton] at hp
      subst hp
      exact hv

lemma alGet_some_of_mem {m : AList VectorSearchResult}
    (hnd : (m.map Prod.fst).Nodup) (hinv : idInv m) {c : VectorSearchResult}
    (hc : c ∈ m.map Prod.snd) : alGet m c.id = some c := by
  rcases List.mem_map.mp hc with ⟨p, hp, hpc⟩
  have hid : c.id = p.1 := by rw [← hpc]; exact hinv p hp
  unfold alGet
  rw [hid, al_find?_of_mem hnd hp, Option.map_some', hpc]

lemma alGet_mem {m : AList VectorSearchResult} {i : String} {c : VectorSearchResult}
    (hinv : idInv m) (h : alGet m i = some c) :
    c ∈ m.map Prod.snd ∧ c.id = i := by
  unfold alGet at h
  rcases hf : m.find? (fun p => decide (p.1 = i)) with _ | p
  · rw [hf] at h
    cases h
  · rw [hf] at h
    have hp := al_find?_some hf
    have hpc : p.2 = c := by simpa using h
    exact ⟨hpc ▸ List.mem_map_of_mem Prod.snd hp.1, by rw [← hpc, hinv p hp.1, hp.2]⟩

/-- The vector-hit scaling of combineSearchResults: similarity × (1 − w). -/
noncomputable def scaleResult (w : ℝ) (r : VectorSearchResult) : VectorSearchResult :=
  { r with similarity := r.similarity * (1 - w) }

/-- The keyword phase of combineSearchResults: add the keyword weight to the
score of an id already present; otherwise enter the keyword hit with score
w. -/
noncomputable def keywordStep (w : ℝ) (m : AList VectorSearchResult)
    (mem : MemoryEntry) : AList VectorSearchResult :=
  match alGet m mem.id with
  | some ex => alSet m mem.id { ex with similarity := ex.similarity + w }
  | none => alSet m mem.id ⟨mem.id, w, mem.content⟩

/-- MemoryManager.combineSearchResults (lines 916-955): scale the vector hits
into an id-keyed Map, fold the keyword hits over it, then sort the values
descending by combined score. -/
noncomputable def combineSearchResults (vectorResults : List VectorSearchResult)
    (keywordResults : List MemoryEntry) (keywordWeight : ℝ) :
    List VectorSearchResult :=
  let m1 := vectorResults.foldl
    (fun m r => alSet m r.id (scaleResult keywordWeight r)) []
  let m2 := keywordResults.foldl (keywordStep keywordWeight) m1
  sortDesc (m2.map Prod.snd)

/-- MemoryManager.semanticSearch, hybrid branch (lines 703-758): vector
search, a keyword read with limit ceil(limit·0.5) (the keywordRead
collaborator abstracts readMemories on the fixed query text), combination and
truncation to the limit. -/
noncomputable def semanticSearchHybrid (store : List VectorEntry)
    (keywordRead : ℕ → List MemoryEntry) (queryEmbedding : Vec) (limit : ℕ)
    (threshold keywordWeight : ℝ) : Except VError (List VectorSearchResult) :=
  match searchSimilar store queryEmbedding limit threshold with
  | .error e => .error e
  | .ok vectorResults =>
      .ok ((combineSearchResults vectorResults (keywordRead ((limit + 1) / 2))
        keywordWeight).take limit)

lemma keywordStep_eq_set (w : ℝ) (m : AList VectorSearchResult) (mem : MemoryEntry) :
    ∃ v, keywordStep w m mem = alSet m mem.id v := by
  unfold keywordStep
  split
  · exact ⟨_, rfl⟩
  · exact ⟨_, rfl⟩

lemma fold1_eq (w : ℝ) : ∀ (vr : List VectorSearchResult) (m : AList VectorSearchResult),
    (∀ r ∈ vr, r.id ∉ m.map Prod.fst) → (vr.map VectorSearchResult.id).Nodup →
    vr.foldl (fun m r => alSet m r.id (scaleResult w r)) m =
      m ++ vr.map (fun r => (r.id, scaleResult w r))
  | [], m, _, _ => by simp
  | r :: vr, m, hfresh, hnd => by
      rw [List.foldl_cons]
      have ha : m.any (fun p => decide (p.1 = r.id)) = false := by
        rw [List.any_eq_false]
        intro p hp
        simp only [decide_eq_true_eq]
        intro he
        exact hfresh r (List.mem_cons_self r vr) (he ▸ List.mem_map_of_mem Prod.fst hp)
      have hset : alSet m r.id (scaleResult w r) = m ++ [(r.id, scaleResult w r)] := by
        unfold alSet
        rw [if_neg (by simp [ha])]
      simp only [List.map_cons, List.nodup_cons] at hnd
      rw [hset, fold1_eq w vr (m ++ [(r.id, scaleResult w r)]) ?_ hnd.2]
      · simp [List.append_assoc]
      · intro r2 hr2
        simp only [List.map_append, List.mem_append, List.map_cons, List.map_nil,
          List.mem_singleton, not_or]
        refine ⟨hfresh r2 (List.mem_cons_of_mem r hr2), ?_⟩
        intro h2
        exact hnd.1 (h2 ▸ List.mem_map_of_mem VectorSearchResult.id hr2)

lemma fold2_get_notin (w : ℝ) {i : String} : ∀ (kr : List MemoryEntry)
    (m : AList VectorSearchResult), (∀ mem ∈ kr, mem.id ≠ i) →
    alGet (kr.foldl (keywordStep w) m) i = alGet m i
  | [], _, _ => rfl
  | mem :: kr, m, h => by
      have hne := h mem (List.mem_cons_self _ _)
      rw [List.foldl_cons,
        fold2_get_notin w kr _ (fun m2 hm2 => h m2 (List.mem_cons_of_mem _ hm2))]
      rcases keywordStep_eq_set w m mem with ⟨v, hv⟩
      rw [hv]
      exact alGet_set_ne m hne v

lemma fold2_get_mem (w : ℝ) : ∀ (kr : List MemoryEntry) (m : AList VectorSearchResult)
    (mem : MemoryEntry), (kr.map MemoryEntry.id).Nodup → mem ∈ kr →
    alGet (kr.foldl (keywordStep w) m) mem.id =
      some (match alGet m mem.id with
            | some ex => { ex with similarity := ex.similarity + w }
            | none => ⟨mem.id, w, mem.content⟩)
  | [], _, _, _, hmem => by cases hmem
  | mem2 :: kr, m, mem, hnd, hmem => by
      simp only [List.map_cons, List.nodup_cons] at hnd
      by_cases he : mem2.id = mem.id
      · have hmm : mem = mem2 := by
          rcases List.mem_cons.mp hmem with rfl | h2
          · rfl
          · exact absurd (show mem2.id ∈ kr.map MemoryEntry.id from by
              rw [he]; exact List.mem_map_of_mem MemoryEntry.id h2) hnd.1
        subst hmm
        rw [List.foldl_cons,
          fold2_get_notin w kr _ (fun m2 hm2 hid =>
            hnd.1 (show mem.id ∈ kr.map MemoryEntry.id from by
              rw [← hid]; exact List.mem_map_of_mem MemoryEntry.id hm2))]
        unfold keywordStep
        split
        · rw [alGet_set_self]
        · rw [alGet_set_self]
      · have hmem2 : mem ∈ kr := by
          rcases List.mem_cons.mp hmem with rfl | h2
          · exact absurd rfl he
          · exact h2
        rw [List.foldl_cons, fold2_get_mem w kr _ mem hnd.2 hmem2]
        have hpres : alGet (keywordStep w m mem2) mem.id = alGet m mem.id := by
          rcases keywordStep_eq_set w m mem2 with ⟨v, hv⟩
          rw [hv]
          exact alGet_set_ne m he v
        rw [hpres]

lemma fold2_inv (w : ℝ) : ∀ (kr : List MemoryEntry) (m : AList VectorSearchResult),
    (m.map Prod.fst).Nodup → idInv m →
    ((kr.foldl (keywordStep w) m).map Prod.fst).Nodup ∧
      idInv (kr.foldl (keywordStep w) m)
  | [], _, h1, h2 => ⟨h1, h2⟩
  | mem :: kr, m, h1, h2 => by
      rw [List.foldl_cons]
      refine fold2_inv w kr _ ?_ ?_
      · rcases keywordStep_eq_set w m mem with ⟨v, hv⟩
        rw [hv]
        exact alSet_keys_nodup h1 _ _
      · unfold keywordStep
        split
        · next ex hg => exact idInv_alSet h2 (alGet_mem h2 hg).2
        · exact idInv_alSet h2 rfl

lemma sorted_out {m : AList VectorSearchResult} (hnd : (m.map Prod.fst).Nodup)
    (hinv : idInv m) {i : String} {c0 : VectorSearchResult}
    (hget : alGet m i = some c0) :
    (∃ c ∈ sortDesc (m.map Prod.snd), c.id = i) ∧
    (∀ c ∈ sortDesc (m.map Prod.snd), c.id = i → c = c0) := by
  have hmm := alGet_mem hinv hget
  constructor
  · exact ⟨c0, mem_sortDesc.mpr hmm.1, hmm.2⟩
  · intro c hc hci
    have hc2 : c ∈ m.map Prod.snd := mem_sortDesc.mp hc
    have h3 := alGet_some_of_mem hnd hinv hc2
    rw [hci] at h3
    rw [h3] at hget
    exact Option.some_inj.mp hget

/-- C2: hybrid semantic search.  In the combined ranking an identifier found
only by the vector search scores s·(1−w); one found only by the keyword read
scores w; one found by both scores s·(1−w)+w.  The combined list is sorted
descending by combined score.  The keyword read is consulted only at limit
ceil(limit/2), and the merged list is truncated to the requested limit. -/
theorem hybrid_search_spec (vr : List VectorSearchResult) (kr : List MemoryEntry)
    (w : ℝ) (store : List VectorEntry) (kw kw2 : ℕ → List MemoryEntry) (q : Vec)
    (L : ℕ) (t : ℝ)
    (hvr : (vr.map VectorSearchResult.id).Nodup)
    (hkr : (kr.map MemoryEntry.id).Nodup) :
    (∀ r ∈ vr, r.id ∉ kr.map MemoryEntry.id →
      (∃ c ∈ combineSearchResults vr kr w, c.id = r.id) ∧
      ∀ c ∈ combineSearchResults vr kr w, c.id = r.id →
        c.similarity = r.similarity * (1 - w)) ∧
    (∀ mem ∈ kr, mem.id ∉ vr.map VectorSearchResult.id →
      (∃ c ∈ combineSearchResults vr kr w, c.id = mem.id) ∧
      ∀ c ∈ combineSearchResults vr kr w, c.id = mem.id → c.similarity = w) ∧
    (∀ r ∈ vr, ∀ mem ∈ kr, mem.id = r.id →
      (∃ c ∈ combineSearchResults vr kr w, c.id = r.id) ∧
      ∀ c ∈ combineSearchResults vr kr w, c.id = r.id →
        c.similarity = r.similarity * (1 - w) + w) ∧
    (combineSearchResults vr kr w).Pairwise
      (fun a b => b.similarity ≤ a.similarity) ∧
    (kw ((L + 1) / 2) = kw2 ((L + 1) / 2) →
      semanticSearchHybrid store kw q L t w = semanticSearchHybrid store kw2 q L t w) ∧
    (∀ vres, searchSimilar store q L t = .ok vres →
      semanticSearchHybrid store kw q L t w =
        .ok ((combineSearchResults vres (kw ((L + 1) / 2)) w).take L)) ∧
    (∀ res, semanticSearchHybrid store kw q L t w = .ok res →
      res.length ≤ L ∧ res.Pairwise (fun a b => b.similarity ≤ a.similarity)) := by
  have hm1eq : vr.foldl (fun m r => alSet m r.id (scaleResult w r)) [] =
      vr.map (fun r => (r.id, scaleResult w r)) := by
    have h := fold1_eq w vr [] (by intro r _ h; cases h) hvr
    simpa using h
  have hk1 : ((vr.map (fun r => (r.id, scaleResult w r))).map Prod.fst).Nodup := by
    rw [List.map_map]
    simpa [Function.comp] using hvr
  have hi1 : idInv (vr.map (fun r => (r.id, scaleResult w r))) := by
    intro p hp
    rcases List.mem_map.mp hp with ⟨r, hr, rfl⟩
    rfl
  have hco : combineSearchResults vr kr w =
      sortDesc ((kr.foldl (keywordStep w)
        (vr.map (fun r => (r.id, scaleResult w r)))).map Prod.snd) := by
    unfold combineSearchResults
    rw [hm1eq]
  have hinv2 := fold2_inv w kr (vr.map (fun r => (r.id, scaleResult w r))) hk1 hi1
  have hget1 : ∀ r ∈ vr,
      alGet (vr.map (fun r => (r.id, scaleResult w r))) r.id = some (scaleResult w r) := by
    intro r hr
    have hc : scaleResult w r ∈ (vr.map (fun r => (r.id, scaleResult w r))).map Prod.snd := by
      rw [List.map_map]
      exact List.mem_map_of_mem _ hr
    exact alGet_some_of_mem hk1 hi1 hc
  have hnone1 : ∀ i, i ∉ vr.map VectorSearchResult.id →
      alGet (vr.map (fun r => (r.id, scaleResult w r))) i = none := by
    intro i hi
    unfold alGet
    rw [al_find?_none ?_]
    · rfl
    · rw [List.any_eq_false]
      intro p hp
      simp only [decide_eq_true_eq]
      intro he
      rcases List.mem_map.mp hp with ⟨r, hr, rfl⟩
      simp only at he
      exact hi (by rw [← he]; exact List.mem_map_of_mem VectorSearchResult.id hr)
  refine ⟨?_, ?_, ?_, ?_, ?_, ?_, ?_⟩
  · intro r hr hni
    have hget2 : alGet (kr.foldl (keywordStep w)
        (vr.map (fun r => (r.id, scaleResult w r)))) r.id = some (scaleResult w r) := by
      rw [fold2_get_notin w kr _ (fun mem hmem he =>
        hni (by rw [← he]; exact List.mem_map_of_mem MemoryEntry.id hmem))]
      exact hget1 r hr
    have hout := sorted_out hinv2.1 hinv2.2 hget2
    rw [hco]
    refine ⟨hout.1, ?_⟩
    intro c hc hci
    rw [hout.2 c hc hci]
    rfl
  · intro mem hmem hni
    have hget2 : alGet (kr.foldl (keywordStep w)
        (vr.map (fun r => (r.id, scaleResult w r)))) mem.id =
          some ⟨mem.id, w, mem.content⟩ := by
      have h := fold2_get_mem w kr (vr.map (fun r => (r.id, scaleResult w r))) mem hkr hmem
      rw [hnone1 mem.id hni] at h
      exact h
    have hout := sorted_out hinv2.1 hinv2.2 hget2
    rw [hco]
    refine ⟨hout.1, ?_⟩
    intro c hc hci
    rw [hout.2 c hc hci]
  · intro r hr mem hmem heq
    have hget2 : alGet (kr.foldl (keywordStep w)
        (vr.map (fun r => (r.id, scaleResult w r)))) mem.id =
          some { scaleResult w r with
            similarity := (scaleResult w r).similarity + w } := by
      have h := fold2_get_mem w kr (vr.map (fun r => (r.id, scaleResult w r))) mem hkr hmem
      rw [show alGet (vr.map (fun r => (r.id, scaleResult w r))) mem.id =
        some (scaleResult w r) from by rw [heq]; exact hget1 r hr] at h
      exact h
    rw [← heq]
    have hout := sorted_out hinv2.1 hinv2.2 hget2
    rw [hco]
    refine ⟨hout.1, ?_⟩
    intro c hc hci
    rw [hout.2 c hc hci]
    rfl
  · rw [hco]
    exact sortDesc_pairwise _
  · intro h
    unfold semanticSearchHybrid
    rw [h]
  · intro vres hv
    unfold semanticSearchHybrid
    rw [hv]
  · intro res hres
    unfold semanticSearchHybrid at hres
    rcases hv : searchSimilar store q L t with e | vres
    all_goals rw [hv] at hres
    · cases hres
    · have hres2 : res = (combineSearchResults vres (kw ((L + 1) / 2)) w).take L := by
        cases hres
        rfl
      subst hres2
      refine ⟨List.length_take_le _ _, ?_⟩
      have hs : (combineSearchResults vres (kw ((L + 1) / 2)) w).Pairwise
          (fun a b => b.similarity ≤ a.similarity) := by
        unfold combineSearchResults
        exact sortDesc_pairwise _
      exact hs.sublist (List.take_sublist _ _)

/-- Witness for C2: the sortedness, keyword-read-limit invariance and
truncation conjuncts exercised at concrete inputs, with the nodup hypotheses
discharged by computation. -/
theorem hybrid_search_spec_witness :
    (combineSearchResults [⟨"v", 3/4, "cv"⟩, ⟨"b", 1/2, "cb"⟩]
        [sampleEntry "b", sampleEntry "k"] (1/4)).Pairwise
      (fun a b => b.similarity ≤ a.similarity) ∧
    semanticSearchHybrid [] (fun _ => [sampleEntry "b", sampleEntry "k"])
        [(1:ℝ)] 5 0 (1/4) =
      semanticSearchHybrid []
        (fun n => if n = 3 then [sampleEntry "b", sampleEntry "k"] else [])
        [(1:ℝ)] 5 0 (1/4) ∧
    semanticSearchHybrid [] (fun _ => [sampleEntry "b", sampleEntry "k"])
        [(1:ℝ)] 5 0 (1/4) =
      .ok ((combineSearchResults []
        ((fun _ : ℕ => [sampleEntry "b", sampleEntry "k"]) ((5 + 1) / 2))
        (1/4)).take 5) := by
  have h := hybrid_search_spec [⟨"v", 3/4, "cv"⟩, ⟨"b", 1/2, "cb"⟩]
    [sampleEntry "b", sampleEntry "k"] (1/4) []
    (fun _ => [sampleEntry "b", sampleEntry "k"])
    (fun n => if n = 3 then [sampleEntry "b", sampleEntry "k"] else []) [(1:ℝ)] 5 0
    (by decide) (by decide)
  refine ⟨h.2.2.2.1, h.2.2.2.2.1 rfl, h.2.2.2.2.2.1 [] ?_⟩
  simp [searchSimilar, validateVector]

/-! ## Embedding provider retry (src/embedding/EmbeddingProvider.ts lines 66-90) -/

/-- One run of BaseEmbeddingProvider.withRetry from a given attempt index with
a given number of retries still allowed (remaining = maxRetries − attempt).
op k is the outcome of the k-th invocation of the wrapped operation.  Returns
the final outcome, the number of attempts made, and the backoff delays in
milliseconds waited after failed non-final attempts. -/
def retryGo {α : Type} (op : ℕ → Except String α) (attempt : ℕ) :
    ℕ → Except String α × ℕ × List ℕ
  | 0 =>
      match op attempt with
      | .ok v => (.ok v, attempt + 1, [])
      | .error e => (.error e, attempt + 1, [])
  | remaining + 1 =>
      match op attempt with
      | .ok v => (.ok v, attempt + 1, [])
      | .error _ =>
          let r := retryGo op (attempt + 1) remaining
          (r.1, r.2.1, (2 ^ attempt * 1000) :: r.2.2)

/-- withRetry(operation, maxRetries): the loop for attempt = 0..maxRetries
with delay 2^attempt · 1000 ms after each failed non-final attempt and the
last error rethrown after the final one. -/
def withRetry {α : Type} (op : ℕ → Except String α) (maxRetries : ℕ) :
    Except String α × ℕ × List ℕ :=
  retryGo op 0 maxRetries

/-- The JS default `this.config.maxRetries || 3`: an absent — or zero, since
0 is falsy — configuration yields 3. -/
def resolveMaxRetries : Option ℕ → ℕ
  | none => 3
  | some n => if n = 0 then 3 else n

lemma retryGo_ok {α : Type} {op : ℕ → Except String α} {attempt : ℕ} {v : α}
    (hop : op attempt = .ok v) :
    ∀ r, retryGo op attempt r = (.ok v, attempt + 1, [])
  | 0 => by unfold retryGo; rw [hop]
  | r + 1 => by unfold retryGo; rw [hop]

lemma retryGo_zero_err {α : Type} {op : ℕ → Except String α} {attempt : ℕ}
    {e : String} (hop : op attempt = .error e) :
    retryGo op attempt 0 = (.error e, attempt + 1, []) := by
  unfold retryGo
  rw [hop]

lemma retryGo_succ_err {α : Type} {op : ℕ → Except String α} {attempt r : ℕ}
    {e : String} (hop : op attempt = .error e) :
    retryGo op attempt (r + 1) =
      ((retryGo op (attempt + 1) r).1, (retryGo op (attempt + 1) r).2.1,
        (2 ^ attempt * 1000) :: (retryGo op (attempt + 1) r).2.2) := by
  conv_lhs => unfold retryGo
  rw [hop]

set_option maxRecDepth 4000 in
lemma retryGo_spec {α : Type} (op : ℕ → Except String α) :
    ∀ (remaining attempt : ℕ),
    (attempt + 1 ≤ (retryGo op attempt remaining).2.1 ∧
      (retryGo op attempt remaining).2.1 ≤ attempt + remaining + 1) ∧
    (retryGo op attempt remaining).2.2 =
      (List.range ((retryGo op attempt remaining).2.1 - 1 - attempt)).map
        (fun j => 2 ^ (attempt + j) * 1000) ∧
    ((∀ j, attempt ≤ j → j ≤ attempt + remaining → ∃ e, op j = .error e) →
      (retryGo op attempt remaining).1 = op (attempt + remaining) ∧
      (retryGo op attempt remaining).2.1 = attempt + remaining + 1) := by
  intro remaining
  induction remaining with
  | zero =>
      intro attempt
      rcases hop : op attempt with e | v
      · rw [retryGo_zero_err hop]
        refine ⟨⟨le_rfl, by show attempt + 1 ≤ attempt + 0 + 1; omega⟩, by simp, ?_⟩
        intro _
        refine ⟨?_, by simp⟩
        simp [hop]
      · rw [retryGo_ok hop 0]
        refine ⟨⟨le_rfl, by show attempt + 1 ≤ attempt + 0 + 1; omega⟩, by simp, ?_⟩
        intro hall
        rcases hall attempt le_rfl (by omega) with ⟨e, he⟩
        rw [hop] at he
        cases he
  | succ r ih =>
      intro attempt
      rcases hop : op attempt with e | v
      · rw [retryGo_succ_err hop]
        rcases ih (attempt + 1) with ⟨⟨hlo, hhi⟩, hdel, hfail⟩
        refine ⟨⟨by simp; omega, by simp; omega⟩, ?_, ?_⟩
        · show (2 ^ attempt * 1000) :: (retryGo op (attempt + 1) r).2.2 =
            (List.range ((retryGo op (attempt + 1) r).2.1 - 1 - attempt)).map
              (fun j => 2 ^ (attempt + j) * 1000)
          rw [hdel]
          have hd : (retryGo op (attempt + 1) r).2.1 - 1 - attempt =
              ((retryGo op (attempt + 1) r).2.1 - 1 - (attempt + 1)) + 1 := by
            omega
          rw [hd, List.range_succ_eq_map, List.map_cons, List.map_map]
          congr 1
          apply List.map_congr_left
          intro j _
          simp only [Function.comp_apply]
          rw [show attempt + 1 + j = attempt + (j + 1) from by omega]
        · intro hall
          have h2 := hfail (fun j h1 h2 => hall j (by omega) (by omega))
          refine ⟨?_, by simp; omega⟩
          show (retryGo op (attempt + 1) r).1 = op (attempt + (r + 1))
          rw [h2.1, show attempt + 1 + r = attempt + (r + 1) from by omega]
      · rw [retryGo_ok hop (r + 1)]
        refine ⟨⟨le_rfl, by show attempt + 1 ≤ attempt + (r + 1) + 1; omega⟩, by simp, ?_⟩
        intro hall
        rcases hall attempt le_rfl (by omega) with ⟨e, he⟩
        rw [hop] at he
        cases he

/-- C9: withRetry performs at most maxRetries+1 attempts; after the i-th
failed attempt (0-based) it waits 2^i seconds (2^i · 1000 ms), starting at 1s
and doubling per attempt; when every attempt fails, the final attempt's error
is raised to the caller; and an unset maxRetries defaults to 3. -/
theorem withRetry_spec {α : Type} (op : ℕ → Except String α) (m : ℕ) :
    (withRetry op m).2.1 ≤ m + 1 ∧
    (withRetry op m).2.2 =
      (List.range ((withRetry op m).2.1 - 1)).map (fun i => 2 ^ i * 1000) ∧
    ((∀ j, j ≤ m → ∃ e, op j = .error e) →
      (withRetry op m).1 = op m ∧ (withRetry op m).2.1 = m + 1) ∧
    resolveMaxRetries none = 3 := by
  have h := retryGo_spec op m 0
  rcases h with ⟨⟨hlo, hhi⟩, hdel, hfail⟩
  refine ⟨by simpa using hhi, ?_, ?_, rfl⟩
  · unfold withRetry
    rw [hdel]
    apply List.map_congr_left
    intro j _
    rw [Nat.zero_add]
  · intro hall
    have h2 := hfail (fun j _ hj => hall j (by omega))
    exact ⟨by simpa using h2.1, by simpa using h2.2⟩

/-- Witness for C9: an always-failing operation with maxRetries 2 is attempted
3 times, waits 1000 ms then 2000 ms, and surfaces the last error. -/
theorem withRetry_spec_witness :
    (withRetry (fun _ : ℕ => (Except.error "boom" : Except String ℕ)) 2).1 =
        Except.error "boom" ∧
    (withRetry (fun _ : ℕ => (Except.error "boom" : Except String ℕ)) 2).2.1 = 3 ∧
    (withRetry (fun _ : ℕ => (Except.error "boom" : Except String ℕ)) 2).2.2 =
        [1000, 2000] := by
  have h := withRetry_spec (fun _ : ℕ => (Except.error "boom" : Except String ℕ)) 2
  have h3 := h.2.2.1 (fun j _ => ⟨"boom", rfl⟩)
  refine ⟨h3.1, h3.2, ?_⟩
  rw [h.2.1, h3.2]
  rfl

/-! ## MemoryManager write path (src/memory/MemoryManager.ts) -/

/-- The engine state relevant to updateMemory/deleteMemory: the LRU cache,
the inverted index, and the durable JSON files (path → records; the external
FileManager collaborator is modelled as a pure path-keyed map). -/
structure EngineState where
  cache : CacheState
  index : MemoryIndex
  files : AList (List MemoryEntry)

/-- FileManager.readJsonFile: the records of a file, [] when absent. -/
def readJsonFile (files : AList (List MemoryEntry)) (path : String) :
    List MemoryEntry :=
  (alGet files path).getD []

/-- FileManager.writeJsonFile: replace or create the file. -/
def writeJsonFile (files : AList (List MemoryEntry)) (path : String)
    (records : List MemoryEntry) : AList (List MemoryEntry) :=
  alSet files path records

/-- MemoryManager.getMemoryFilePath (lines 579-588): the global file for
GLOBAL records, the conversation file for a truthy conversation id, the
global file otherwise. -/
def getMemoryFilePath (mem : MemoryEntry) : String :=
  match mem.type, mem.conversationId with
  | .global, _ => "global_memories.json"
  | _, some c => if c = "" then "global_memories.json"
      else "conversation_" ++ c ++ ".json"
  | _, none => "global_memories.json"

/-- UpdateMemoryInput (src/types/memory.ts): optional replacement content,
tags and metadata. -/
structure UpdateMemoryInput where
  content : Option String := none
  tags : Option (List String) := none
  metadata : Option (List (String × String)) := none

/-- UpdateMemoryInputSchema.parse: a supplied replacement content must be
non-empty (z.string().min(1).optional()). -/
def validateUpdateInput (input : UpdateMemoryInput) : Bool :=
  match input.content with
  | some c => decide (1 ≤ c.length)
  | none => true

/-- The engine's structured ApiResponse: success carrying data and message,
or a caught error turned into a failure result — the engine never lets an
exception cross its boundary. -/
inductive ApiResp (α : Type) where
  | ok (data : α) (message : String)
  | fail (error : String)

/-- The JS object spread { ...old, ...patch }: patch entries overwrite in
place, new keys append. -/
def mergeMetadata (old patch : List (String × String)) : List (String × String) :=
  patch.foldl (fun m p => alSet m p.1 p.2) old

/-- MemoryIndex.updateMemory: remove the old projection, add the new one. -/
def updateMemoryIndex (idx : MemoryIndex) (oldMem newMem : MemoryEntry) :
    MemoryIndex :=
  addMemory (removeMemory idx oldMem) newMem

/-- MemoryManager.updateMemory (lines 324-391): validate the input, decide
existence by a cache lookup alone, merge the record, rewrite its file, then
refresh cache and index; every failure is a returned fail result.  now is the
current ISO timestamp. -/
def updateMemory (s : EngineState) (memoryId : String)
    (input : UpdateMemoryInput) (now : String) :
    ApiResp MemoryEntry × EngineState :=
  if validateUpdateInput input = false then (.fail "Invalid input", s)
  else
    match cacheGet s.cache memoryId with
    | (none, cache2) => (.fail "Memory not found", { s with cache := cache2 })
    | (some oldMemory, cache2) =>
        let updatedMemory : MemoryEntry :=
          { oldMemory with
            content := input.content.getD oldMemory.content,
            tags := input.tags.getD oldMemory.tags,
            metadata := mergeMetadata oldMemory.metadata (input.metadata.getD []),
            updatedAt := now }
        if updatedMemory.content.length = 0 then
          (.fail "Invalid memory entry", { s with cache := cache2 })
        else
          let filePath := getMemoryFilePath updatedMemory
          let memories := readJsonFile s.files filePath
          let updatedMemories :=
            memories.map (fun m => if m.id = memoryId then updatedMemory else m)
          let files2 := writeJsonFile s.files filePath updatedMemories
          let cache3 := cacheSet cache2 memoryId updatedMemory
          let index2 := updateMemoryIndex s.index oldMemory updatedMemory
          (.ok updatedMemory "Memory updated successfully",
            { cache := cache3, index := index2, files := files2 })

/-- MemoryManager.deleteMemory (lines 396-448): decide existence by a cache
lookup alone, filter the record out of its file, then drop it from cache and
index. -/
def deleteMemory (s : EngineState) (memoryId : String) :
    ApiResp Unit × EngineState :=
  match cacheGet s.cache memoryId with
  | (none, cache2) => (.fail "Memory not found", { s with cache := cache2 })
  | (some memory, cache2) =>
      let filePath := getMemoryFilePath memory
      let memories := readJsonFile s.files filePath
      let filteredMemories := memories.filter (fun m => !(m.id == memoryId))
      let files2 := writeJsonFile s.files filePath filteredMemories
      let cache3 := cacheDelete cache2 memoryId
      let index2 := removeMemory s.index memory
      (.ok () "Memory deleted successfully",
        { cache := cache3, index := index2, files := files2 })

/-- C8: for an id absent from the engine's record lookup (for example after
deleting that record), updateMemory with valid input returns the structured
not-found failure — the operation is a total function into ApiResp, never a
thrown exception — and the cache contents, index and files are unchanged;
only the observability miss counter advances. -/
theorem updateMemory_not_found (s : EngineState) (memoryId : String)
    (input : UpdateMemoryInput) (now : String)
    (hval : validateUpdateInput input = true)
    (habsent : s.cache.entries.find? (fun p => p.1 == memoryId) = none) :
    (updateMemory s memoryId input now).1 = .fail "Memory not found" ∧
    (updateMemory s memoryId input now).2.cache.entries = s.cache.entries ∧
    (updateMemory s memoryId input now).2.index = s.index ∧
    (updateMemory s memoryId input now).2.files = s.files := by
  unfold updateMemory
  rw [if_neg (by simp [hval])]
  unfold cacheGet
  rw [habsent]
  exact ⟨rfl, rfl, rfl, rfl⟩

/-- Witness for C8: a concrete engine state with an empty cache misses a
lookup of "m1" and update fails not-found without touching state. -/
theorem updateMemory_not_found_witness :
    (updateMemory ⟨emptyCache 10, emptyIndex, []⟩ "m1" ⟨none, none, none⟩
      "2025-01-02T00:00:00.000Z").1 = .fail "Memory not found" ∧
    (updateMemory ⟨emptyCache 10, emptyIndex, []⟩ "m1" ⟨none, none, none⟩
      "2025-01-02T00:00:00.000Z").2.cache.entries = (emptyCache 10).entries ∧
    (updateMemory ⟨emptyCache 10, emptyIndex, []⟩ "m1" ⟨none, none, none⟩
      "2025-01-02T00:00:00.000Z").2.index = emptyIndex ∧
    (updateMemory ⟨emptyCache 10, emptyIndex, []⟩ "m1" ⟨none, none, none⟩
      "2025-01-02T00:00:00.000Z").2.files = [] :=
  updateMemory_not_found ⟨emptyCache 10, emptyIndex, []⟩ "m1" ⟨none, none, none⟩
    "2025-01-02T00:00:00.000Z" rfl rfl

/-- C10: record existence is decided solely by the cache lookup: when the
record exists in a durable file but is absent from the cache (for example
evicted by the LRU policy), both updateMemory and deleteMemory report the
not-found failure and leave the files, cache contents and index unchanged,
even though the record exists. -/
theorem stale_cache_not_found (s : EngineState) (memoryId : String)
    (input : UpdateMemoryInput) (now : String)
    (hval : validateUpdateInput input = true)
    (habsent : s.cache.entries.find? (fun p => p.1 == memoryId) = none)
    (hexists : ∃ f ∈ s.files, ∃ m ∈ f.2, m.id = memoryId) :
    ((updateMemory s memoryId input now).1 = .fail "Memory not found" ∧
      (updateMemory s memoryId input now).2.cache.entries = s.cache.entries ∧
      (updateMemory s memoryId input now).2.index = s.index ∧
      (updateMemory s memoryId input now).2.files = s.files) ∧
    ((deleteMemory s memoryId).1 = .fail "Memory not found" ∧
      (deleteMemory s memoryId).2.cache.entries = s.cache.entries ∧
      (deleteMemory s memoryId).2.index = s.index ∧
      (deleteMemory s memoryId).2.files = s.files) := by
  constructor
  · unfold updateMemory
    rw [if_neg (by simp [hval])]
    unfold cacheGet
    rw [habsent]
    exact ⟨rfl, rfl, rfl, rfl⟩
  · unfold deleteMemory cacheGet
    rw [habsent]
    exact ⟨rfl, rfl, rfl, rfl⟩

/-- Witness for C10: sampleRecord lives in the global file but not in the
cache; update and delete both miss. -/
theorem stale_cache_not_found_witness :
    ((updateMemory ⟨emptyCache 10, emptyIndex,
        [("global_memories.json", [sampleRecord])]⟩ "m1" ⟨none, none, none⟩
        "2025-01-02T00:00:00.000Z").1 = .fail "Memory not found" ∧
      (updateMemory ⟨emptyCache 10, emptyIndex,
        [("global_memories.json", [sampleRecord])]⟩ "m1" ⟨none, none, none⟩
        "2025-01-02T00:00:00.000Z").2.cache.entries = (emptyCache 10).entries ∧
      (updateMemory ⟨emptyCache 10, emptyIndex,
        [("global_memories.json", [sampleRecord])]⟩ "m1" ⟨none, none, none⟩
        "2025-01-02T00:00:00.000Z").2.index = emptyIndex ∧
      (updateMemory ⟨emptyCache 10, emptyIndex,
        [("global_memories.json", [sampleRecord])]⟩ "m1" ⟨none, none, none⟩
        "2025-01-02T00:00:00.000Z").2.files =
          [("global_memories.json", [sampleRecord])]) ∧
    ((deleteMemory ⟨emptyCache 10, emptyIndex,
        [("global_memories.json", [sampleRecord])]⟩ "m1").1 =
          .fail "Memory not found" ∧
      (deleteMemory ⟨emptyCache 10, emptyIndex,
        [("global_memories.json", [sampleRecord])]⟩ "m1").2.cache.entries =
          (emptyCache 10).entries ∧
      (deleteMemory ⟨emptyCache 10, emptyIndex,
        [("global_memories.json", [sampleRecord])]⟩ "m1").2.index = emptyIndex ∧
      (deleteMemory ⟨emptyCache 10, emptyIndex,
        [("global_memories.json", [sampleRecord])]⟩ "m1").2.files =
          [("global_memories.json", [sampleRecord])]) :=
  stale_cache_not_found ⟨emptyCache 10, emptyIndex,
      [("global_memories.json", [sampleRecord])]⟩ "m1" ⟨none, none, none⟩
    "2025-01-02T00:00:00.000Z" rfl rfl
    ⟨("global_memories.json", [sampleRecord]), List.mem_cons_self _ _,
      sampleRecord, List.mem_cons_self _ _, rfl⟩

end MCPMemory
